import Mathlib

/-!
Shallow embedding of the upload-queue engine of
`src/components/islands/FileList.tsx` (the `FileList` Preact island):
the `files` state array, the `activeUploads` interval registry, the
`startSimulation` tick callback, `removeFile` with its deferred purge,
`addFiles`, and `handleClearFiles`, together with the outward
notifications (`file-added`, `file-completed`, `file-removed`)
dispatched on the container element.

Modelling conventions:
* `Math.random()` draws are passed in explicitly as rationals in `[0, 1)`.
* `crypto.randomUUID()` is replaced by a deterministic fresh-id counter
  (`nextId`); the freshness property of UUIDs is reflected by the side
  condition that a removal request only ever names an id that has been
  issued.
* JavaScript numbers are modelled as `ℚ` (progress percentages) and
  `Nat`/`Int` (counters and chunk bounds); all arithmetic appearing in
  the engine is exact on these inputs.
* Preact's `setState(fn)` computes the updater eagerly, so every timer
  callback is one atomic state transformation of the single-threaded
  event loop; scheduled-but-unfired `setTimeout` purges are kept in a
  FIFO queue in the state.
-/

namespace JuiceboxFileList

/-- A file descriptor as delivered by the host's "files-added" signal
(the fields of a DOM `File` the component reads: `name`, `size`, `type`). -/
structure FileInput where
  name : String
  size : Nat
  type : String
deriving Repr, DecidableEq

/-- One entry of the component's `files` state array (the `FileItem`
interface of the source).  `progress` is the percentage stored by the
tick callback, `isExiting` is the optional flag (absent = `false`). -/
structure FileItem where
  uploadId : Nat
  name : String
  size : Nat
  type : String
  progress : ℚ
  status : String
  isComplete : Bool
  totalChunks : Nat
  isExiting : Bool
deriving Repr, DecidableEq

/-- The state of one interval started by `startSimulation`: the captured
`uploadId` and `totalChunks`, and the closure-mutable `currentChunk`
counter.  The list of clocks models the `activeUploads` map (keyed by
`uploadId`) together with each interval's closure. -/
structure Clock where
  uploadId : Nat
  totalChunks : Nat
  currentChunk : Nat
deriving Repr, DecidableEq

/-- The component props the engine reads: `simulateUploads` and
`chunkRange` (a pair of JavaScript numbers, modelled as integers). -/
structure Config where
  simulateUploads : Bool
  chunkRange : Int × Int
deriving Repr, DecidableEq

/-- An outward notification dispatched on the container element. -/
inductive Event where
  | fileAdded (uploadId : Nat) (name : String) (size : Nat) (type : String) (totalChunks : Nat)
  | fileCompleted (uploadId : Nat)
  | fileRemoved (uploadId : Nat) (fileName : String) (userInitiated : Bool)
deriving Repr, DecidableEq

/-- The whole engine state: the `files` useState array, the active
clocks, the `setTimeout` purges scheduled by `removeFile` that have not
fired yet (oldest first), the fresh-id counter standing in for
`crypto.randomUUID()`, and the trace of dispatched notifications. -/
structure EngineState where
  files : List FileItem
  clocks : List Clock
  pendingPurges : List (Nat × Bool)
  nextId : Nat
  events : List Event
deriving Repr, DecidableEq

/-- The state of a freshly mounted component: no files, no clocks. -/
def initState : EngineState :=
  { files := [], clocks := [], pendingPurges := [], nextId := 0, events := [] }

/-- The clamped lower chunk bound of `randomChunkTotal`:
`Math.max(1, chunkRange[0] || 1)` (`|| 1` replaces a zero first bound). -/
def clampedMin (cfg : Config) : Int :=
  max 1 (if cfg.chunkRange.1 = 0 then 1 else cfg.chunkRange.1)

/-- The clamped upper chunk bound of `randomChunkTotal`:
`Math.max(min, chunkRange[1] || min)`. -/
def clampedMax (cfg : Config) : Int :=
  max (clampedMin cfg) (if cfg.chunkRange.2 = 0 then clampedMin cfg else cfg.chunkRange.2)

/-- The body of `randomChunkTotal`:
`Math.floor(Math.random() * (max - min + 1)) + min`, with the
`Math.random()` draw `u` passed in explicitly. -/
def randomChunkTotal (cfg : Config) (u : ℚ) : Int :=
  Int.floor (u * ((clampedMax cfg - clampedMin cfg + 1 : Int) : ℚ)) + clampedMin cfg

/-- The per-item update performed by the tick callback's `setFiles` map on
the matching item: new `progress` (`progressRatio * 100`), new `status`
text, and the `isComplete` flag (`progressRatio >= 1`).  `cur` is the
closure's incremented `currentChunk`, `total` the closure's `totalChunks`. -/
def advanceItem (f : FileItem) (cur total : Nat) : FileItem :=
  let ratio : ℚ := min ((cur : ℚ) / (total : ℚ)) 1
  let isComplete : Bool := decide (1 ≤ ratio)
  let shown : Nat := min cur total
  { f with
    progress := ratio * 100,
    status := if isComplete then "Upload Complete" else s!"Uploading chunk {shown}/{total}",
    isComplete := isComplete }

/-- One firing of the interval callback of `startSimulation` for the clock
`c`: increment the closure counter, update the matching item (if any), and
on a completing tick that finds its item, clear the interval, drop the
`activeUploads` entry and dispatch `file-completed`.  A tick whose item is
gone updates nothing and keeps its interval (the guard
`f.uploadId !== uploadId` inside the map). -/
def tickApply (s : EngineState) (uid : Nat) (c : Clock) : EngineState :=
  let cur := c.currentChunk + 1
  let ratio : ℚ := min ((cur : ℚ) / (c.totalChunks : ℚ)) 1
  let isComplete : Bool := decide (1 ≤ ratio)
  let hit : Bool := s.files.any (fun f => f.uploadId == uid)
  { s with
    files := s.files.map (fun f =>
      if f.uploadId == uid then advanceItem f cur c.totalChunks else f),
    clocks :=
      if hit && isComplete then s.clocks.filter (fun c2 => !(c2.uploadId == uid))
      else s.clocks.map (fun c2 =>
        if c2.uploadId == uid then { c2 with currentChunk := cur } else c2),
    events := if hit && isComplete then s.events ++ [Event.fileCompleted uid] else s.events }

/-- A tick delivered for `uid`: fires the registered interval for `uid` if
one exists; a cleared interval never fires again, so a tick with no
registered clock is the identity. -/
def tickFire (s : EngineState) (uid : Nat) : EngineState :=
  match s.clocks.find? (fun c => c.uploadId == uid) with
  | none => s
  | some c => tickApply s uid c

/-- The body of `removeFile(uploadId, userInitiated)`: clear the interval
registered for the id (if any) and drop it from `activeUploads`, mark the
matching item `isExiting`, and schedule the 300 ms deferred purge. -/
def removeFile (s : EngineState) (uid : Nat) (userInitiated : Bool) : EngineState :=
  let clocks' :=
    if s.clocks.any (fun c => c.uploadId == uid)
    then s.clocks.filter (fun c => !(c.uploadId == uid))
    else s.clocks
  { s with
    clocks := clocks',
    files := s.files.map (fun f =>
      if f.uploadId == uid then { f with isExiting := true } else f),
    pendingPurges := s.pendingPurges ++ [(uid, userInitiated)] }

/-- The `setTimeout` body scheduled by `removeFile`, firing the oldest
pending purge: dispatch `file-removed` (with the remembered
`userInitiated` flag) if the item is still present, then filter the id
out of the list.  With no pending purge this is the identity. -/
def purgeFire (s : EngineState) : EngineState :=
  match s.pendingPurges with
  | [] => s
  | (uid, userInitiated) :: rest =>
    let events' :=
      match s.files.find? (fun f => f.uploadId == uid) with
      | some f => s.events ++ [Event.fileRemoved uid f.name userInitiated]
      | none => s.events
    { s with
      files := s.files.filter (fun f => !(f.uploadId == uid)),
      pendingPurges := rest,
      events := events' }

/-- One iteration of the `newFiles.map` body of `addFiles` for a single
submitted file: generate the id, sample `totalChunks`, start the
simulation clock when `simulateUploads` is set (`startSimulation` returns
early otherwise), dispatch `file-added`, and build the new item in its
initial state.  Returns the updated engine state and the new item. -/
def admitOne (cfg : Config) (s : EngineState) (input : FileInput) (u : ℚ) :
    EngineState × FileItem :=
  let uid := s.nextId
  let total := (randomChunkTotal cfg u).toNat
  let clocks' := if cfg.simulateUploads then s.clocks ++ [⟨uid, total, 0⟩] else s.clocks
  ({ s with
      nextId := s.nextId + 1,
      clocks := clocks',
      events := s.events ++ [Event.fileAdded uid input.name input.size input.type total] },
    { uploadId := uid, name := input.name, size := input.size, type := input.type,
      progress := 0, status := "Initializing...", isComplete := false,
      totalChunks := total, isExiting := false })

/-- The sequential effects of mapping `admitOne` over the submitted files
(each paired with its `Math.random()` draw), collecting the new items in
submission order. -/
def admitAll (cfg : Config) (s : EngineState) :
    List (FileInput × ℚ) → EngineState × List FileItem
  | [] => (s, [])
  | fu :: rest =>
    let p := admitOne cfg s fu.1 fu.2
    let q := admitAll cfg p.1 rest
    (q.1, p.2 :: q.2)

/-- The body of `addFiles`: run the admissions, then the single trailing
`setFiles(prev => [...prev, ...newItems])`. -/
def addFiles (cfg : Config) (s : EngineState) (inputs : List (FileInput × ℚ)) : EngineState :=
  let p := admitAll cfg s inputs
  { p.1 with files := p.1.files ++ p.2 }

/-- The body of `handleClearFiles`: clear every interval, empty
`activeUploads`, and reset the list — with no per-item notification.
Purges already scheduled by `removeFile` are not cancelled. -/
def handleClearFiles (s : EngineState) : EngineState :=
  { s with clocks := [], files := [] }

/-- An internal timer callback: one interval tick for an id, or the firing
of the oldest scheduled purge.  These are the only transitions the engine
performs without an external signal. -/
inductive InternalAction where
  | tick (uid : Nat)
  | purge
deriving Repr, DecidableEq

/-- Executes one internal timer callback. -/
def applyInternal (s : EngineState) : InternalAction → EngineState
  | .tick uid => tickFire s uid
  | .purge => purgeFire s

/-- Executes a list of internal timer callbacks in order. -/
def internalRun (s : EngineState) : List InternalAction → EngineState
  | [] => s
  | a :: tr => internalRun (applyInternal s a) tr

/-- All `Math.random()` draws of a submission batch lie in `[0, 1)`. -/
def validDraws (inputs : List (FileInput × ℚ)) : Prop :=
  ∀ p ∈ inputs, 0 ≤ p.2 ∧ p.2 < 1

/-- One transition of the event loop: an external signal
(`files-added`, `remove-file`, `clear-files`) or an internal timer
callback.  A submission carries `Math.random()` draws in `[0, 1)`; a
removal request only ever names an id that has been issued (the model's
rendering of UUID freshness — the DOM can only echo ids the component
generated). -/
inductive Step (cfg : Config) : EngineState → EngineState → Prop where
  | submit (s : EngineState) (inputs : List (FileInput × ℚ)) (h : validDraws inputs) :
      Step cfg s (addFiles cfg s inputs)
  | remove (s : EngineState) (uid : Nat) (b : Bool) (h : uid < s.nextId) :
      Step cfg s (removeFile s uid b)
  | clear (s : EngineState) : Step cfg s (handleClearFiles s)
  | tick (s : EngineState) (uid : Nat) : Step cfg s (tickFire s uid)
  | purge (s : EngineState) : Step cfg s (purgeFire s)

/-- The states the mounted component can reach from its initial state. -/
inductive Reachable (cfg : Config) : EngineState → Prop where
  | base : Reachable cfg initState
  | step {s s' : EngineState} : Reachable cfg s → Step cfg s s' → Reachable cfg s'

/-- The lifecycle phase of an item as the spec's data model derives it
from the stored flags: `isExiting` wins, then `isComplete`, and an item
that has never been ticked still shows the admission status text. -/
inductive Phase where
  | initializing
  | transferring
  | complete
  | exiting
deriving Repr, DecidableEq

/-- Derives an item's phase from its stored fields. -/
def FileItem.phase (f : FileItem) : Phase :=
  if f.isExiting then Phase.exiting
  else if f.isComplete then Phase.complete
  else if f.status = "Initializing..." then Phase.initializing
  else Phase.transferring

/-! ## Generic list helpers -/

/-- Mapping a function that fixes every member of a list is the identity. -/
theorem map_eq_self {α : Type} {l : List α} {g : α → α} (h : ∀ a ∈ l, g a = a) :
    l.map g = l := by
  induction l with
  | nil => rfl
  | cons a t ih =>
    rw [List.map_cons, h a (List.mem_cons_self a t),
      ih (fun x hx => h x (List.mem_cons_of_mem a hx))]

/-- Members of a key-pairwise-distinct list are determined by their key. -/
theorem key_inj {α : Type} (key : α → Nat) {l : List α}
    (h : l.Pairwise (fun a b => key a ≠ key b)) {x y : α}
    (hx : x ∈ l) (hy : y ∈ l) (hk : key x = key y) : x = y := by
  induction l with
  | nil => cases hx
  | cons a t ih =>
    rcases List.pairwise_cons.mp h with ⟨ha, ht⟩
    rcases List.mem_cons.mp hx with hxa | hxt <;> rcases List.mem_cons.mp hy with hya | hyt
    · rw [hxa, hya]
    · exact absurd (hxa ▸ hk) (ha y hyt)
    · exact absurd (hya ▸ hk).symm (ha x hxt)
    · exact ih ht hxt hyt

/-- In a key-pairwise-distinct list, `find?` by key returns the member
with that key. -/
theorem find?_key_eq {α : Type} (key : α → Nat) {l : List α}
    (h : l.Pairwise (fun a b => key a ≠ key b)) {x : α}
    (hx : x ∈ l) (uid : Nat) (hk : key x = uid) :
    l.find? (fun y => key y == uid) = some x := by
  induction l with
  | nil => cases hx
  | cons a t ih =>
    rcases List.pairwise_cons.mp h with ⟨ha, ht⟩
    rcases List.mem_cons.mp hx with hxa | hxt
    · rw [List.find?_cons_of_pos]
      · rw [hxa]
      · rw [← hxa]; simpa using hk
    · rw [List.find?_cons_of_neg]
      · exact ih ht hxt
      · have : key a ≠ uid := fun hc => (ha x hxt) (by rw [hc, hk])
        simpa using this

/-- A `find?` by key misses when no member carries the key. -/
theorem find?_key_none {α : Type} (key : α → Nat) {l : List α}
    (h : ∀ x ∈ l, key x ≠ uid) :
    l.find? (fun y => key y == uid) = none := by
  apply List.find?_eq_none.mpr
  intro x hx
  simpa using h x hx

/-! ## Characterizations of the engine operations -/

theorem removeFile_files (s : EngineState) (uid : Nat) (b : Bool) :
    (removeFile s uid b).files =
      s.files.map (fun f => if f.uploadId == uid then { f with isExiting := true } else f) := rfl

theorem removeFile_events (s : EngineState) (uid : Nat) (b : Bool) :
    (removeFile s uid b).events = s.events := rfl

theorem removeFile_pending (s : EngineState) (uid : Nat) (b : Bool) :
    (removeFile s uid b).pendingPurges = s.pendingPurges ++ [(uid, b)] := rfl

theorem removeFile_nextId (s : EngineState) (uid : Nat) (b : Bool) :
    (removeFile s uid b).nextId = s.nextId := rfl

/-- Clocks after a removal: exactly the old clocks not keyed by the
removed id (whether or not an interval was registered for it). -/
theorem mem_removeFile_clocks (s : EngineState) (uid : Nat) (b : Bool) (c : Clock) :
    c ∈ (removeFile s uid b).clocks ↔ c ∈ s.clocks ∧ c.uploadId ≠ uid := by
  unfold removeFile
  by_cases h : s.clocks.any (fun c => c.uploadId == uid) = true
  · simp only [h, if_pos, List.mem_filter]
    simp
  · have hno : ∀ c ∈ s.clocks, c.uploadId ≠ uid := by
      intro c2 hc2
      by_contra hcq
      exact h (List.any_eq_true.mpr ⟨c2, hc2, by simpa using hcq⟩)
    simp only [h, if_neg, Bool.not_eq_true]
    constructor
    · intro hc; exact ⟨hc, hno c hc⟩
    · intro hc; exact hc.1

/-- A removal request whose id marks no present item leaves the item
list unchanged. -/
theorem removeFile_files_absent (s : EngineState) (uid : Nat) (b : Bool)
    (h : ∀ f ∈ s.files, f.uploadId ≠ uid) :
    (removeFile s uid b).files = s.files := by
  rw [removeFile_files]
  apply map_eq_self
  intro f hf
  simp [h f hf]

/-- A removal request for an id with no registered interval leaves the
clock registry unchanged. -/
theorem removeFile_clocks_absent (s : EngineState) (uid : Nat) (b : Bool)
    (h : ∀ c ∈ s.clocks, c.uploadId ≠ uid) :
    (removeFile s uid b).clocks = s.clocks := by
  unfold removeFile
  have : s.clocks.any (fun c => c.uploadId == uid) = false := by
    apply List.any_eq_false.mpr
    intro c hc
    simpa using h c hc
  simp [this]

/-- A removal request for an already-exiting (or untouched) item list
where every matching item is already exiting leaves the list unchanged. -/
theorem removeFile_files_exiting (s : EngineState) (uid : Nat) (b : Bool)
    (h : ∀ f ∈ s.files, f.uploadId = uid → f.isExiting = true) :
    (removeFile s uid b).files = s.files := by
  rw [removeFile_files]
  apply map_eq_self
  intro f hf
  by_cases hu : f.uploadId = uid
  · have hx : f.isExiting = true := h f hf hu
    have hb : (f.uploadId == uid) = true := by simpa using hu
    rw [if_pos hb]
    cases f
    simp_all
  · simp [hu]

theorem tickFire_of_none (s : EngineState) (uid : Nat)
    (h : s.clocks.find? (fun c => c.uploadId == uid) = none) :
    tickFire s uid = s := by
  unfold tickFire
  rw [h]

theorem tickFire_of_some (s : EngineState) (uid : Nat) (c : Clock)
    (h : s.clocks.find? (fun c => c.uploadId == uid) = some c) :
    tickFire s uid = tickApply s uid c := by
  unfold tickFire
  rw [h]

/-- A tick for an id with no registered interval never fires. -/
theorem tickFire_no_clock (s : EngineState) (uid : Nat)
    (h : ∀ c ∈ s.clocks, c.uploadId ≠ uid) :
    tickFire s uid = s :=
  tickFire_of_none s uid (find?_key_none Clock.uploadId h)

theorem advanceItem_uploadId (f : FileItem) (cur total : Nat) :
    (advanceItem f cur total).uploadId = f.uploadId := rfl

theorem advanceItem_isExiting (f : FileItem) (cur total : Nat) :
    (advanceItem f cur total).isExiting = f.isExiting := rfl

theorem advanceItem_totalChunks (f : FileItem) (cur total : Nat) :
    (advanceItem f cur total).totalChunks = f.totalChunks := rfl

theorem tickFire_pending (s : EngineState) (uid : Nat) :
    (tickFire s uid).pendingPurges = s.pendingPurges := by
  unfold tickFire
  cases s.clocks.find? (fun c => c.uploadId == uid) <;> rfl

theorem tickFire_nextId (s : EngineState) (uid : Nat) :
    (tickFire s uid).nextId = s.nextId := by
  unfold tickFire
  cases s.clocks.find? (fun c => c.uploadId == uid) <;> rfl

/-- A tick never creates or deletes an item: the id column of the list is
untouched. -/
theorem tickFire_ids (s : EngineState) (uid : Nat) :
    (tickFire s uid).files.map FileItem.uploadId = s.files.map FileItem.uploadId := by
  unfold tickFire
  cases s.clocks.find? (fun c => c.uploadId == uid) with
  | none => rfl
  | some c =>
    show (s.files.map _).map FileItem.uploadId = _
    rw [List.map_map]
    apply List.map_congr_left
    intro f _
    by_cases h : f.uploadId = uid <;> simp [h, advanceItem_uploadId]

/-- A tick never marks or unmarks an item as exiting. -/
theorem tickFire_isExiting (s : EngineState) (uid : Nat) :
    (tickFire s uid).files.map FileItem.isExiting = s.files.map FileItem.isExiting := by
  unfold tickFire
  cases s.clocks.find? (fun c => c.uploadId == uid) with
  | none => rfl
  | some c =>
    show (s.files.map _).map FileItem.isExiting = _
    rw [List.map_map]
    apply List.map_congr_left
    intro f _
    by_cases h : f.uploadId = uid <;> simp [h, advanceItem_isExiting]

theorem purgeFire_empty (s : EngineState) (h : s.pendingPurges = []) :
    purgeFire s = s := by
  unfold purgeFire
  rw [h]

/-- With no clocks and no pending purges, internal timer callbacks can
never change the state again: the engine is quiescent. -/
theorem internalRun_quiescent (s : EngineState)
    (hc : s.clocks = []) (hp : s.pendingPurges = []) :
    ∀ tr : List InternalAction, internalRun s tr = s := by
  intro tr
  induction tr with
  | nil => rfl
  | cons a tr ih =>
    have ha : applyInternal s a = s := by
      cases a with
      | tick uid =>
        exact tickFire_no_clock s uid (by rw [hc]; intro c hcm; cases hcm)
      | purge => exact purgeFire_empty s hp
    show internalRun (applyInternal s a) tr = s
    rw [ha, ih]

/-- Bounds of the (clamped) sampler, shared helper: the clamped bounds
are ordered with the minimum at least 1, and for a draw in `[0, 1)` the
sample lies in the inclusive clamped range. -/
theorem chunkTotal_bounds (cfg : Config) (u : ℚ) (h0 : 0 ≤ u) (h1 : u < 1) :
    1 ≤ clampedMin cfg ∧ clampedMin cfg ≤ clampedMax cfg ∧
    clampedMin cfg ≤ randomChunkTotal cfg u ∧
    randomChunkTotal cfg u ≤ clampedMax cfg ∧
    1 ≤ randomChunkTotal cfg u := by
  have hmin : 1 ≤ clampedMin cfg := le_max_left _ _
  have hmm : clampedMin cfg ≤ clampedMax cfg := le_max_left _ _
  have hlen : (1 : Int) ≤ clampedMax cfg - clampedMin cfg + 1 := by omega
  have hlenQ : (0 : ℚ) < ((clampedMax cfg - clampedMin cfg + 1 : Int) : ℚ) := by
    exact_mod_cast lt_of_lt_of_le Int.zero_lt_one hlen
  have hfl0 : (0 : Int) ≤ Int.floor (u * ((clampedMax cfg - clampedMin cfg + 1 : Int) : ℚ)) := by
    apply Int.floor_nonneg.mpr
    exact mul_nonneg h0 (le_of_lt hlenQ)
  have hflub : Int.floor (u * ((clampedMax cfg - clampedMin cfg + 1 : Int) : ℚ)) <
      clampedMax cfg - clampedMin cfg + 1 := by
    apply Int.floor_lt.mpr
    calc u * ((clampedMax cfg - clampedMin cfg + 1 : Int) : ℚ)
        < 1 * ((clampedMax cfg - clampedMin cfg + 1 : Int) : ℚ) := by
          exact mul_lt_mul_of_pos_right h1 hlenQ
      _ = ((clampedMax cfg - clampedMin cfg + 1 : Int) : ℚ) := one_mul _
  refine ⟨hmin, hmm, ?_, ?_, ?_⟩
  · unfold randomChunkTotal; omega
  · unfold randomChunkTotal; omega
  · unfold randomChunkTotal; omega

/-! ## Characterization of admission -/

/-- The `file-added` notification an admitted item gives rise to. -/
def evOf (it : FileItem) : Event :=
  Event.fileAdded it.uploadId it.name it.size it.type it.totalChunks

/-- The simulation clock an admitted item gives rise to. -/
def clkOf (it : FileItem) : Clock :=
  { uploadId := it.uploadId, totalChunks := it.totalChunks, currentChunk := 0 }

theorem admitAll_files (cfg : Config) (inputs : List (FileInput × ℚ)) :
    ∀ s : EngineState, (admitAll cfg s inputs).1.files = s.files := by
  induction inputs with
  | nil => intro s; rfl
  | cons fu rest ih =>
    intro s
    show (admitAll cfg (admitOne cfg s fu.1 fu.2).1 rest).1.files = s.files
    rw [ih]
    rfl

theorem admitAll_pending (cfg : Config) (inputs : List (FileInput × ℚ)) :
    ∀ s : EngineState, (admitAll cfg s inputs).1.pendingPurges = s.pendingPurges := by
  induction inputs with
  | nil => intro s; rfl
  | cons fu rest ih =>
    intro s
    show (admitAll cfg (admitOne cfg s fu.1 fu.2).1 rest).1.pendingPurges = s.pendingPurges
    rw [ih]
    rfl

theorem admitAll_nextId (cfg : Config) (inputs : List (FileInput × ℚ)) :
    ∀ s : EngineState, (admitAll cfg s inputs).1.nextId = s.nextId + inputs.length := by
  induction inputs with
  | nil => intro s; rfl
  | cons fu rest ih =>
    intro s
    show (admitAll cfg (admitOne cfg s fu.1 fu.2).1 rest).1.nextId = s.nextId + (fu :: rest).length
    rw [ih]
    show s.nextId + 1 + rest.length = s.nextId + (rest.length + 1)
    omega

theorem admitAll_length (cfg : Config) (inputs : List (FileInput × ℚ)) :
    ∀ s : EngineState, (admitAll cfg s inputs).2.length = inputs.length := by
  induction inputs with
  | nil => intro s; rfl
  | cons fu rest ih =>
    intro s
    show ((admitOne cfg s fu.1 fu.2).2 :: (admitAll cfg _ rest).2).length = rest.length + 1
    rw [List.length_cons, ih]

/-- The ids of the admitted items are the successive fresh ids, in
submission order. -/
theorem admitAll_ids (cfg : Config) (inputs : List (FileInput × ℚ)) :
    ∀ s : EngineState,
      (admitAll cfg s inputs).2.map FileItem.uploadId = List.range' s.nextId inputs.length := by
  induction inputs with
  | nil => intro s; rfl
  | cons fu rest ih =>
    intro s
    show (admitOne cfg s fu.1 fu.2).2.uploadId ::
        (admitAll cfg (admitOne cfg s fu.1 fu.2).1 rest).2.map FileItem.uploadId =
      List.range' s.nextId (rest.length + 1)
    rw [ih, List.range'_succ]
    rfl

theorem admitAll_names (cfg : Config) (inputs : List (FileInput × ℚ)) :
    ∀ s : EngineState,
      (admitAll cfg s inputs).2.map FileItem.name = inputs.map (fun p => p.1.name) := by
  induction inputs with
  | nil => intro s; rfl
  | cons fu rest ih =>
    intro s
    show fu.1.name :: (admitAll cfg (admitOne cfg s fu.1 fu.2).1 rest).2.map FileItem.name =
      fu.1.name :: rest.map (fun p => p.1.name)
    rw [ih]

theorem admitAll_sizes (cfg : Config) (inputs : List (FileInput × ℚ)) :
    ∀ s : EngineState,
      (admitAll cfg s inputs).2.map FileItem.size = inputs.map (fun p => p.1.size) := by
  induction inputs with
  | nil => intro s; rfl
  | cons fu rest ih =>
    intro s
    show fu.1.size :: (admitAll cfg (admitOne cfg s fu.1 fu.2).1 rest).2.map FileItem.size =
      fu.1.size :: rest.map (fun p => p.1.size)
    rw [ih]

theorem admitAll_types (cfg : Config) (inputs : List (FileInput × ℚ)) :
    ∀ s : EngineState,
      (admitAll cfg s inputs).2.map FileItem.type = inputs.map (fun p => p.1.type) := by
  induction inputs with
  | nil => intro s; rfl
  | cons fu rest ih =>
    intro s
    show fu.1.type :: (admitAll cfg (admitOne cfg s fu.1 fu.2).1 rest).2.map FileItem.type =
      fu.1.type :: rest.map (fun p => p.1.type)
    rw [ih]

/-- Admission dispatches exactly one `file-added` per item, in order,
carrying the item's id, metadata and sampled total. -/
theorem admitAll_events (cfg : Config) (inputs : List (FileInput × ℚ)) :
    ∀ s : EngineState,
      (admitAll cfg s inputs).1.events = s.events ++ (admitAll cfg s inputs).2.map evOf := by
  induction inputs with
  | nil => intro s; show s.events = s.events ++ List.map evOf []; simp
  | cons fu rest ih =>
    intro s
    show (admitAll cfg (admitOne cfg s fu.1 fu.2).1 rest).1.events =
      s.events ++ List.map evOf ((admitOne cfg s fu.1 fu.2).2 ::
        (admitAll cfg (admitOne cfg s fu.1 fu.2).1 rest).2)
    rw [ih, List.map_cons]
    have he : (admitOne cfg s fu.1 fu.2).1.events =
        s.events ++ [evOf (admitOne cfg s fu.1 fu.2).2] := rfl
    rw [he, List.append_assoc]
    rfl

/-- Admission with simulation enabled registers exactly one clock per
item, in order, keyed by the item's id with the item's total and a zero
counter. -/
theorem admitAll_clocks_sim (cfg : Config) (hsim : cfg.simulateUploads = true)
    (inputs : List (FileInput × ℚ)) :
    ∀ s : EngineState,
      (admitAll cfg s inputs).1.clocks = s.clocks ++ (admitAll cfg s inputs).2.map clkOf := by
  induction inputs with
  | nil => intro s; show s.clocks = s.clocks ++ List.map clkOf []; simp
  | cons fu rest ih =>
    intro s
    show (admitAll cfg (admitOne cfg s fu.1 fu.2).1 rest).1.clocks =
      s.clocks ++ List.map clkOf ((admitOne cfg s fu.1 fu.2).2 ::
        (admitAll cfg (admitOne cfg s fu.1 fu.2).1 rest).2)
    rw [ih, List.map_cons]
    have hc : (admitOne cfg s fu.1 fu.2).1.clocks =
        s.clocks ++ [clkOf (admitOne cfg s fu.1 fu.2).2] := by
      show (if cfg.simulateUploads = true
        then s.clocks ++ [clkOf (admitOne cfg s fu.1 fu.2).2] else s.clocks) = _
      rw [if_pos hsim]
    rw [hc, List.append_assoc]
    rfl

/-- Admission with simulation disabled registers no clock at all. -/
theorem admitAll_clocks_nosim (cfg : Config) (hsim : cfg.simulateUploads = false)
    (inputs : List (FileInput × ℚ)) :
    ∀ s : EngineState, (admitAll cfg s inputs).1.clocks = s.clocks := by
  induction inputs with
  | nil => intro s; rfl
  | cons fu rest ih =>
    intro s
    show (admitAll cfg (admitOne cfg s fu.1 fu.2).1 rest).1.clocks = s.clocks
    rw [ih]
    show (if cfg.simulateUploads = true
      then s.clocks ++ [clkOf (admitOne cfg s fu.1 fu.2).2] else s.clocks) = s.clocks
    rw [hsim]
    simp

/-- Admission registers exactly one clock per item (when simulation is
enabled), in order, keyed by the item's id with the item's total and a
zero counter. -/
theorem admitAll_clocks (cfg : Config) (inputs : List (FileInput × ℚ)) (s : EngineState) :
    (admitAll cfg s inputs).1.clocks = s.clocks ++
      (if cfg.simulateUploads then (admitAll cfg s inputs).2.map clkOf else []) := by
  cases hs : cfg.simulateUploads
  · rw [admitAll_clocks_nosim cfg hs inputs s]
    simp [hs]
  · rw [admitAll_clocks_sim cfg hs inputs s]
    simp [hs]

/-- Every admitted item starts in its initial state: zero progress, the
admission status text, not complete, not exiting. -/
theorem admitAll_item_props (cfg : Config) (inputs : List (FileInput × ℚ)) :
    ∀ s : EngineState, ∀ it ∈ (admitAll cfg s inputs).2,
      it.progress = 0 ∧ it.status = "Initializing..." ∧
      it.isComplete = false ∧ it.isExiting = false := by
  induction inputs with
  | nil => intro s it hit; cases hit
  | cons fu rest ih =>
    intro s it hit
    rcases List.mem_cons.mp hit with h | h
    · rw [h]; exact ⟨rfl, rfl, rfl, rfl⟩
    · exact ih _ it h

/-- With draws in `[0, 1)`, every admitted item's sampled total is
positive. -/
theorem admitAll_totals_pos (cfg : Config) (inputs : List (FileInput × ℚ)) :
    ∀ s : EngineState, validDraws inputs → ∀ it ∈ (admitAll cfg s inputs).2,
      0 < it.totalChunks := by
  induction inputs with
  | nil => intro s _ it hit; cases hit
  | cons fu rest ih =>
    intro s hv it hit
    rcases List.mem_cons.mp hit with h | h
    · rcases hv fu (List.mem_cons_self fu rest) with ⟨h0, h1⟩
      have hb := chunkTotal_bounds cfg fu.2 h0 h1
      have h1' : 1 ≤ randomChunkTotal cfg fu.2 := hb.2.2.2.2
      have : it.totalChunks = (randomChunkTotal cfg fu.2).toNat := by rw [h]; rfl
      omega
    · exact ih _ (fun p hp => hv p (List.mem_cons_of_mem fu hp)) it h

theorem addFiles_files (cfg : Config) (s : EngineState) (inputs : List (FileInput × ℚ)) :
    (addFiles cfg s inputs).files = s.files ++ (admitAll cfg s inputs).2 := by
  show (admitAll cfg s inputs).1.files ++ (admitAll cfg s inputs).2 = _
  rw [admitAll_files]

theorem addFiles_clocks (cfg : Config) (s : EngineState) (inputs : List (FileInput × ℚ)) :
    (addFiles cfg s inputs).clocks = s.clocks ++
      (if cfg.simulateUploads then (admitAll cfg s inputs).2.map clkOf else []) :=
  admitAll_clocks cfg inputs s

theorem addFiles_events (cfg : Config) (s : EngineState) (inputs : List (FileInput × ℚ)) :
    (addFiles cfg s inputs).events = s.events ++ (admitAll cfg s inputs).2.map evOf :=
  admitAll_events cfg inputs s

theorem addFiles_pending (cfg : Config) (s : EngineState) (inputs : List (FileInput × ℚ)) :
    (addFiles cfg s inputs).pendingPurges = s.pendingPurges :=
  admitAll_pending cfg inputs s

theorem addFiles_nextId (cfg : Config) (s : EngineState) (inputs : List (FileInput × ℚ)) :
    (addFiles cfg s inputs).nextId = s.nextId + inputs.length :=
  admitAll_nextId cfg inputs s

/-- Every admitted item's id is fresh: at least the pre-admission
`nextId`. -/
theorem admitAll_ids_fresh (cfg : Config) (s : EngineState) (inputs : List (FileInput × ℚ)) :
    ∀ it ∈ (admitAll cfg s inputs).2, s.nextId ≤ it.uploadId ∧
      it.uploadId < s.nextId + inputs.length := by
  intro it hit
  have hm : it.uploadId ∈ (admitAll cfg s inputs).2.map FileItem.uploadId :=
    List.mem_map_of_mem FileItem.uploadId hit
  rw [admitAll_ids] at hm
  exact List.mem_range'_1.mp hm

end JuiceboxFileList

namespace JuiceboxFileList

/-! ## Ratio arithmetic -/

/-- Before the final chunk, the capped progress ratio is the raw ratio
and stays below 1. -/
theorem ratio_below {cur total : Nat} (h : cur < total) :
    min ((cur : ℚ) / (total : ℚ)) 1 = (cur : ℚ) / (total : ℚ) ∧
    (cur : ℚ) / (total : ℚ) < 1 := by
  have htot : (0 : ℚ) < (total : ℚ) := by
    exact_mod_cast Nat.lt_of_le_of_lt (Nat.zero_le cur) h
  have hlt : (cur : ℚ) < (total : ℚ) := by exact_mod_cast h
  have hq : (cur : ℚ) / (total : ℚ) < 1 := (div_lt_one htot).mpr hlt
  exact ⟨min_eq_left (le_of_lt hq), hq⟩

/-- On the final chunk the capped progress ratio is exactly 1. -/
theorem ratio_full {total : Nat} (h : 0 < total) :
    min ((total : ℚ) / (total : ℚ)) 1 = 1 := by
  have htot : (total : ℚ) ≠ 0 := by
    exact_mod_cast Nat.pos_iff_ne_zero.mp h
  rw [div_self htot, min_self]

/-! ## Shapes of the tick callback -/

theorem advanceItem_progress (f : FileItem) (cur total : Nat) :
    (advanceItem f cur total).progress = min ((cur : ℚ) / (total : ℚ)) 1 * 100 := rfl

theorem advanceItem_isComplete (f : FileItem) (cur total : Nat) :
    (advanceItem f cur total).isComplete =
      decide (1 ≤ min ((cur : ℚ) / (total : ℚ)) 1) := rfl

theorem advanceItem_name (f : FileItem) (cur total : Nat) :
    (advanceItem f cur total).name = f.name := rfl

/-- A completing tick that still finds its item: items updated, the
interval filtered out of the registry, `file-completed` dispatched. -/
theorem tickApply_complete (s : EngineState) (uid : Nat) (c : Clock)
    (hhit : s.files.any (fun f => f.uploadId == uid) = true)
    (hdone : decide (1 ≤ min (((c.currentChunk + 1 : Nat) : ℚ) / (c.totalChunks : ℚ)) 1) = true) :
    tickApply s uid c = { s with
      files := s.files.map (fun f =>
        if f.uploadId == uid then advanceItem f (c.currentChunk + 1) c.totalChunks else f),
      clocks := s.clocks.filter (fun c2 => !(c2.uploadId == uid)),
      events := s.events ++ [Event.fileCompleted uid] } := by
  unfold tickApply
  simp only [hhit, hdone, Bool.and_self, Bool.true_and, Bool.and_true, if_true]

/-- A non-completing tick: items updated, the clock counter advanced,
no notification. -/
theorem tickApply_incomplete (s : EngineState) (uid : Nat) (c : Clock)
    (hdone : decide (1 ≤ min (((c.currentChunk + 1 : Nat) : ℚ) / (c.totalChunks : ℚ)) 1) = false) :
    tickApply s uid c = { s with
      files := s.files.map (fun f =>
        if f.uploadId == uid then advanceItem f (c.currentChunk + 1) c.totalChunks else f),
      clocks := s.clocks.map (fun c2 =>
        if c2.uploadId == uid then { c2 with currentChunk := c.currentChunk + 1 } else c2) } := by
  unfold tickApply
  simp only [hdone, Bool.and_false, Bool.false_eq_true, if_false]

/-- The equation of a purge fire with a pending entry at the head. -/
theorem purgeFire_eq (s : EngineState) (uid : Nat) (b : Bool) (rest : List (Nat × Bool))
    (hp : s.pendingPurges = (uid, b) :: rest) :
    purgeFire s = { s with
      files := s.files.filter (fun f => !(f.uploadId == uid)),
      pendingPurges := rest,
      events := match s.files.find? (fun f => f.uploadId == uid) with
        | some f => s.events ++ [Event.fileRemoved uid f.name b]
        | none => s.events } := by
  unfold purgeFire
  rw [hp]

/-! ## The reachable-state invariant -/

/-- Pairwise-distinct item ids. -/
def distinctFiles (l : List FileItem) : Prop :=
  l.Pairwise (fun a b => a.uploadId ≠ b.uploadId)

/-- Pairwise-distinct clock keys. -/
def distinctClocks (l : List Clock) : Prop :=
  l.Pairwise (fun a b => a.uploadId ≠ b.uploadId)

/-- The inductive invariant of the engine: ids are unique and below the
fresh-id counter, every active interval belongs to a live, not-yet
complete, not-exiting item whose stored progress mirrors the closure
counter, counters stay strictly below their targets, ids with a
scheduled purge have no active interval, and progress percentages stay
in `[0, 100]`. -/
structure Inv (s : EngineState) : Prop where
  files_nodup : distinctFiles s.files
  clocks_nodup : distinctClocks s.clocks
  files_lt : ∀ f ∈ s.files, f.uploadId < s.nextId
  clocks_lt : ∀ c ∈ s.clocks, c.uploadId < s.nextId
  purges_lt : ∀ p ∈ s.pendingPurges, p.1 < s.nextId
  clock_item : ∀ c ∈ s.clocks, ∃ f ∈ s.files, f.uploadId = c.uploadId ∧
      f.totalChunks = c.totalChunks ∧ f.isComplete = false ∧ f.isExiting = false ∧
      f.progress = (c.currentChunk : ℚ) / (c.totalChunks : ℚ) * 100
  clock_cnt : ∀ c ∈ s.clocks, c.currentChunk < c.totalChunks
  purge_clockfree : ∀ p ∈ s.pendingPurges, ∀ c ∈ s.clocks, c.uploadId ≠ p.1
  item_bounds : ∀ f ∈ s.files, 0 ≤ f.progress ∧ f.progress ≤ 100 ∧ 0 < f.totalChunks

/-- The initial state satisfies the invariant. -/
theorem inv_init : Inv initState := by
  refine ⟨List.Pairwise.nil, List.Pairwise.nil, ?_, ?_, ?_, ?_, ?_, ?_, ?_⟩ <;>
    intro x hx <;> cases hx

/-- Id-preserving maps preserve id-distinctness of items. -/
theorem distinctFiles_map {g : FileItem → FileItem}
    (hg : ∀ f, (g f).uploadId = f.uploadId) {l : List FileItem}
    (h : distinctFiles l) : distinctFiles (l.map g) := by
  rw [distinctFiles, List.pairwise_map]
  exact h.imp (fun hab => by rw [hg, hg]; exact hab)

/-- Key-preserving maps preserve key-distinctness of clocks. -/
theorem distinctClocks_map {g : Clock → Clock}
    (hg : ∀ c, (g c).uploadId = c.uploadId) {l : List Clock}
    (h : distinctClocks l) : distinctClocks (l.map g) := by
  rw [distinctClocks, List.pairwise_map]
  exact h.imp (fun hab => by rw [hg, hg]; exact hab)

/-- Clearing the queue preserves the invariant. -/
theorem inv_clear (s : EngineState) (hs : Inv s) : Inv (handleClearFiles s) := by
  constructor
  · exact List.Pairwise.nil
  · exact List.Pairwise.nil
  · intro f hf; cases hf
  · intro c hc; cases hc
  · exact hs.purges_lt
  · intro c hc; cases hc
  · intro c hc; cases hc
  · intro p _ c hc; cases hc
  · intro f hf; cases hf

/-- A removal request (for an issued id) preserves the invariant. -/
theorem inv_remove (s : EngineState) (uid : Nat) (b : Bool)
    (huid : uid < s.nextId) (hs : Inv s) : Inv (removeFile s uid b) := by
  have hg : ∀ f : FileItem,
      ((fun f => if f.uploadId == uid then { f with isExiting := true } else f) f).uploadId
        = f.uploadId := by
    intro f
    by_cases h : f.uploadId = uid <;> simp [h]
  constructor
  · rw [removeFile_files]
    exact distinctFiles_map hg hs.files_nodup
  · have hsub : (removeFile s uid b).clocks.Sublist s.clocks := by
      show (if s.clocks.any (fun c => c.uploadId == uid)
        then s.clocks.filter (fun c => !(c.uploadId == uid)) else s.clocks).Sublist s.clocks
      by_cases hany : s.clocks.any (fun c => c.uploadId == uid) = true
      · rw [if_pos hany]; exact List.filter_sublist s.clocks
      · rw [if_neg hany]
    exact List.Pairwise.sublist hsub hs.clocks_nodup
  · rw [removeFile_files, removeFile_nextId]
    intro f' hf'
    rcases List.mem_map.mp hf' with ⟨f, hfmem, hfe⟩
    rw [← hfe, hg]
    exact hs.files_lt f hfmem
  · rw [removeFile_nextId]
    intro c hc
    exact hs.clocks_lt c ((mem_removeFile_clocks s uid b c).mp hc).1
  · rw [removeFile_pending, removeFile_nextId]
    intro p hp
    rcases List.mem_append.mp hp with h | h
    · exact hs.purges_lt p h
    · rcases List.mem_singleton.mp h with rfl
      exact huid
  · intro c hc
    rcases (mem_removeFile_clocks s uid b c).mp hc with ⟨hcmem, hcne⟩
    obtain ⟨f, hfmem, hfid, hftot, hfcomp, hfex, hfprog⟩ := hs.clock_item c hcmem
    refine ⟨f, ?_, hfid, hftot, hfcomp, hfex, hfprog⟩
    rw [removeFile_files]
    have hfne : (f.uploadId == uid) = false := by
      simp only [beq_eq_false_iff_ne, ne_eq]
      rw [hfid]
      exact hcne
    have : (if f.uploadId == uid then { f with isExiting := true } else f) = f := by
      rw [hfne]
      simp
    rw [← this]
    exact List.mem_map_of_mem _ hfmem
  · intro c hc
    exact hs.clock_cnt c ((mem_removeFile_clocks s uid b c).mp hc).1
  · rw [removeFile_pending]
    intro p hp c hc
    rcases (mem_removeFile_clocks s uid b c).mp hc with ⟨hcmem, hcne⟩
    rcases List.mem_append.mp hp with h | h
    · exact hs.purge_clockfree p h c hcmem
    · rcases List.mem_singleton.mp h with rfl
      exact hcne
  · rw [removeFile_files]
    intro f' hf'
    rcases List.mem_map.mp hf' with ⟨f, hfmem, hfe⟩
    have hb := hs.item_bounds f hfmem
    rw [← hfe]
    by_cases h : f.uploadId = uid
    · simp only [h, beq_self_eq_true, if_pos]
      exact hb
    · have : (f.uploadId == uid) = false := by simpa using h
      rw [this]
      simpa using hb

/-- A purge fire preserves the invariant. -/
theorem inv_purge (s : EngineState) (hs : Inv s) : Inv (purgeFire s) := by
  cases hp : s.pendingPurges with
  | nil => rw [purgeFire_empty s hp]; exact hs
  | cons p rest =>
    rcases p with ⟨uid, b⟩
    rw [purgeFire_eq s uid b rest hp]
    have hpmem : (uid, b) ∈ s.pendingPurges := by rw [hp]; exact List.mem_cons_self _ _
    constructor
    · exact List.Pairwise.sublist (List.filter_sublist s.files) hs.files_nodup
    · exact hs.clocks_nodup
    · intro f hf
      exact hs.files_lt f (List.mem_of_mem_filter hf)
    · exact hs.clocks_lt
    · intro q hq
      exact hs.purges_lt q (by rw [hp]; exact List.mem_cons_of_mem _ hq)
    · intro c hc
      obtain ⟨f, hfmem, hfid, hftot, hfcomp, hfex, hfprog⟩ := hs.clock_item c hc
      refine ⟨f, ?_, hfid, hftot, hfcomp, hfex, hfprog⟩
      apply List.mem_filter.mpr
      refine ⟨hfmem, ?_⟩
      have : f.uploadId ≠ uid := by
        rw [hfid]
        exact hs.purge_clockfree (uid, b) hpmem c hc
      simpa using this
    · exact hs.clock_cnt
    · intro q hq c hc
      exact hs.purge_clockfree q (by rw [hp]; exact List.mem_cons_of_mem _ hq) c hc
    · intro f hf
      exact hs.item_bounds f (List.mem_of_mem_filter hf)

/-- Progress percentages computed by a tick stay within `[0, 100]`. -/
theorem ratio_scaled_bounds (cur total : Nat) :
    0 ≤ min ((cur : ℚ) / (total : ℚ)) 1 * 100 ∧
    min ((cur : ℚ) / (total : ℚ)) 1 * 100 ≤ 100 := by
  have h0 : (0 : ℚ) ≤ (cur : ℚ) / (total : ℚ) := by positivity
  have hmin0 : (0 : ℚ) ≤ min ((cur : ℚ) / (total : ℚ)) 1 := le_min h0 (by norm_num)
  have hmin1 : min ((cur : ℚ) / (total : ℚ)) 1 ≤ 1 := min_le_right _ _
  constructor
  · exact mul_nonneg hmin0 (by norm_num)
  · calc min ((cur : ℚ) / (total : ℚ)) 1 * 100 ≤ 1 * 100 :=
        mul_le_mul_of_nonneg_right hmin1 (by norm_num)
    _ = 100 := one_mul 100

/-- A tick preserves the invariant. -/
theorem inv_tick (s : EngineState) (uid : Nat) (hs : Inv s) : Inv (tickFire s uid) := by
  cases hfind : s.clocks.find? (fun c => c.uploadId == uid) with
  | none => rw [tickFire_of_none s uid hfind]; exact hs
  | some c =>
    rw [tickFire_of_some s uid c hfind]
    have hcmem : c ∈ s.clocks := List.mem_of_find?_eq_some hfind
    have hcuid : c.uploadId = uid := by simpa using List.find?_some hfind
    obtain ⟨f, hfmem, hfid, hftot, hfcomp, hfex, hfprog⟩ := hs.clock_item c hcmem
    have hcnt : c.currentChunk < c.totalChunks := hs.clock_cnt c hcmem
    have htotpos : 0 < c.totalChunks := Nat.lt_of_le_of_lt (Nat.zero_le _) hcnt
    have hhit : s.files.any (fun f => f.uploadId == uid) = true :=
      List.any_eq_true.mpr ⟨f, hfmem, by simp [hfid, hcuid]⟩
    have hg : ∀ f2 : FileItem,
        ((fun f2 => if f2.uploadId == uid
          then advanceItem f2 (c.currentChunk + 1) c.totalChunks else f2) f2).uploadId
          = f2.uploadId := by
      intro f2
      by_cases h : f2.uploadId = uid <;> simp [h, advanceItem_uploadId]
    by_cases hdone : c.currentChunk + 1 = c.totalChunks
    · have hbool : decide
          (1 ≤ min (((c.currentChunk + 1 : Nat) : ℚ) / (c.totalChunks : ℚ)) 1) = true := by
        apply decide_eq_true
        rw [hdone, ratio_full htotpos]
      rw [tickApply_complete s uid c hhit hbool]
      constructor
      · exact distinctFiles_map hg hs.files_nodup
      · exact List.Pairwise.sublist (List.filter_sublist s.clocks) hs.clocks_nodup
      · intro f' hf'
        rcases List.mem_map.mp hf' with ⟨f2, hf2mem, hf2e⟩
        rw [← hf2e, hg]
        exact hs.files_lt f2 hf2mem
      · intro c2 hc2
        exact hs.clocks_lt c2 (List.mem_of_mem_filter hc2)
      · exact hs.purges_lt
      · intro c2 hc2
        rcases List.mem_filter.mp hc2 with ⟨hc2mem, hc2p⟩
        have hc2ne : c2.uploadId ≠ uid := by simpa using hc2p
        obtain ⟨f2, hf2mem, hf2id, hf2tot, hf2comp, hf2ex, hf2prog⟩ := hs.clock_item c2 hc2mem
        refine ⟨f2, ?_, hf2id, hf2tot, hf2comp, hf2ex, hf2prog⟩
        have hne : (f2.uploadId == uid) = false := by
          simp only [beq_eq_false_iff_ne, ne_eq]
          rw [hf2id]; exact hc2ne
        have himg : (if f2.uploadId == uid
            then advanceItem f2 (c.currentChunk + 1) c.totalChunks else f2) = f2 := by
          rw [hne]; simp
        rw [← himg]
        exact List.mem_map_of_mem _ hf2mem
      · intro c2 hc2
        exact hs.clock_cnt c2 (List.mem_of_mem_filter hc2)
      · intro p hp c2 hc2
        exact hs.purge_clockfree p hp c2 (List.mem_of_mem_filter hc2)
      · intro f' hf'
        rcases List.mem_map.mp hf' with ⟨f2, hf2mem, hf2e⟩
        have hb := hs.item_bounds f2 hf2mem
        rw [← hf2e]
        by_cases h : f2.uploadId = uid
        · have hbq : (f2.uploadId == uid) = true := by simpa using h
          rw [hbq]
          simp only [if_true]
          have hr := ratio_scaled_bounds (c.currentChunk + 1) c.totalChunks
          refine ⟨?_, ?_, ?_⟩
          · rw [advanceItem_progress]; exact hr.1
          · rw [advanceItem_progress]; exact hr.2
          · rw [advanceItem_totalChunks]; exact hb.2.2
        · have hbq : (f2.uploadId == uid) = false := by simpa using h
          rw [hbq]
          simpa using hb
    · have hlt : c.currentChunk + 1 < c.totalChunks := Nat.lt_of_le_of_ne hcnt hdone
      have hbool : decide
          (1 ≤ min (((c.currentChunk + 1 : Nat) : ℚ) / (c.totalChunks : ℚ)) 1) = false := by
        apply decide_eq_false
        rcases ratio_below hlt with ⟨hmin, hq⟩
        rw [hmin]
        exact not_le.mpr hq
      rw [tickApply_incomplete s uid c hbool]
      have hgc : ∀ c2 : Clock,
          ((fun c2 => if c2.uploadId == uid
            then { c2 with currentChunk := c.currentChunk + 1 } else c2) c2).uploadId
            = c2.uploadId := by
        intro c2
        by_cases h : c2.uploadId = uid <;> simp [h]
      constructor
      · exact distinctFiles_map hg hs.files_nodup
      · exact distinctClocks_map hgc hs.clocks_nodup
      · intro f' hf'
        rcases List.mem_map.mp hf' with ⟨f2, hf2mem, hf2e⟩
        rw [← hf2e, hg]
        exact hs.files_lt f2 hf2mem
      · intro c' hc'
        rcases List.mem_map.mp hc' with ⟨c2, hc2mem, hc2e⟩
        rw [← hc2e, hgc]
        exact hs.clocks_lt c2 hc2mem
      · exact hs.purges_lt
      · intro c' hc'
        rcases List.mem_map.mp hc' with ⟨c2, hc2mem, hc2e⟩
        by_cases h : c2.uploadId = uid
        · have hc2c : c2 = c := key_inj Clock.uploadId hs.clocks_nodup hc2mem hcmem
            (by rw [h, hcuid])
          have hfb : (f.uploadId == uid) = true := by
            simp only [beq_iff_eq]
            rw [hfid, hcuid]
          refine ⟨(if f.uploadId == uid
            then advanceItem f (c.currentChunk + 1) c.totalChunks else f), ?_, ?_⟩
          · exact List.mem_map_of_mem _ hfmem
          · rw [hfb]
            simp only [if_true]
            rw [← hc2e, hc2c]
            have hbq : (c.uploadId == uid) = true := by simpa using hcuid
            rw [hbq]
            simp only [if_true]
            rcases ratio_below hlt with ⟨hmin, _⟩
            refine ⟨?_, ?_, ?_, ?_, ?_⟩
            · rw [advanceItem_uploadId]; exact hfid
            · rw [advanceItem_totalChunks]; exact hftot
            · rw [advanceItem_isComplete, hbool]
            · rw [advanceItem_isExiting]; exact hfex
            · rw [advanceItem_progress, hmin]
        · have hc2ne : c2.uploadId ≠ uid := h
          obtain ⟨f2, hf2mem, hf2id, hf2tot, hf2comp, hf2ex, hf2prog⟩ :=
            hs.clock_item c2 hc2mem
          have hne : (f2.uploadId == uid) = false := by
            simp only [beq_eq_false_iff_ne, ne_eq]
            rw [hf2id]; exact hc2ne
          have hcne : (c2.uploadId == uid) = false := by simpa using hc2ne
          refine ⟨f2, ?_, ?_⟩
          · have himg : (if f2.uploadId == uid
              then advanceItem f2 (c.currentChunk + 1) c.totalChunks else f2) = f2 := by
              rw [hne]; simp
            rw [← himg]
            exact List.mem_map_of_mem _ hf2mem
          · rw [← hc2e, hcne]
            simp only [Bool.false_eq_true, if_false]
            exact ⟨hf2id, hf2tot, hf2comp, hf2ex, hf2prog⟩
      · intro c' hc'
        rcases List.mem_map.mp hc' with ⟨c2, hc2mem, hc2e⟩
        by_cases h : c2.uploadId = uid
        · have hbq : (c2.uploadId == uid) = true := by simpa using h
          rw [← hc2e, hbq]
          simp only [if_true]
          have hc2c : c2 = c := key_inj Clock.uploadId hs.clocks_nodup hc2mem hcmem
            (by rw [h, hcuid])
          rw [hc2c]
          exact hlt
        · have hbq : (c2.uploadId == uid) = false := by simpa using h
          rw [← hc2e, hbq]
          simp only [Bool.false_eq_true, if_false]
          exact hs.clock_cnt c2 hc2mem
      · intro p hp c' hc'
        rcases List.mem_map.mp hc' with ⟨c2, hc2mem, hc2e⟩
        rw [← hc2e, hgc]
        exact hs.purge_clockfree p hp c2 hc2mem
      · intro f' hf'
        rcases List.mem_map.mp hf' with ⟨f2, hf2mem, hf2e⟩
        have hb := hs.item_bounds f2 hf2mem
        rw [← hf2e]
        by_cases h : f2.uploadId = uid
        · have hbq : (f2.uploadId == uid) = true := by simpa using h
          rw [hbq]
          simp only [if_true]
          have hr := ratio_scaled_bounds (c.currentChunk + 1) c.totalChunks
          refine ⟨?_, ?_, ?_⟩
          · rw [advanceItem_progress]; exact hr.1
          · rw [advanceItem_progress]; exact hr.2
          · rw [advanceItem_totalChunks]; exact hb.2.2
        · have hbq : (f2.uploadId == uid) = false := by simpa using h
          rw [hbq]
          simpa using hb

/-- Admitted items have pairwise-distinct (fresh, increasing) ids. -/
theorem admitAll_nodup (cfg : Config) (inputs : List (FileInput × ℚ)) :
    ∀ s : EngineState, distinctFiles (admitAll cfg s inputs).2 := by
  induction inputs with
  | nil => intro s; exact List.Pairwise.nil
  | cons fu rest ih =>
    intro s
    show distinctFiles ((admitOne cfg s fu.1 fu.2).2 ::
      (admitAll cfg (admitOne cfg s fu.1 fu.2).1 rest).2)
    rw [distinctFiles, List.pairwise_cons]
    refine ⟨?_, ih _⟩
    intro it hit
    have hfresh := admitAll_ids_fresh cfg (admitOne cfg s fu.1 fu.2).1 rest it hit
    have h1 : (admitOne cfg s fu.1 fu.2).1.nextId = s.nextId + 1 := rfl
    have h2 : (admitOne cfg s fu.1 fu.2).2.uploadId = s.nextId := rfl
    rw [h1] at hfresh
    rw [h2]
    omega

/-- Clocks built from id-distinct items are key-distinct. -/
theorem distinctClocks_of_items {l : List FileItem} (h : distinctFiles l) :
    distinctClocks (l.map clkOf) := by
  rw [distinctClocks, List.pairwise_map]
  exact h.imp (fun hab => hab)

/-- A submission (with draws in range) preserves the invariant. -/
theorem inv_submit (cfg : Config) (s : EngineState) (inputs : List (FileInput × ℚ))
    (hv : validDraws inputs) (hs : Inv s) : Inv (addFiles cfg s inputs) := by
  have hfiles := addFiles_files cfg s inputs
  have hclocks := addFiles_clocks cfg s inputs
  have hnext := addFiles_nextId cfg s inputs
  have hpend := addFiles_pending cfg s inputs
  have hq := admitAll_nodup cfg inputs s
  have hfresh := admitAll_ids_fresh cfg s inputs
  have hprops := admitAll_item_props cfg inputs s
  have htot := admitAll_totals_pos cfg inputs s hv
  have hmemclk : ∀ c ∈ (addFiles cfg s inputs).clocks,
      c ∈ s.clocks ∨ ∃ it ∈ (admitAll cfg s inputs).2, c = clkOf it := by
    intro c hc
    rw [hclocks] at hc
    rcases List.mem_append.mp hc with h | h
    · exact Or.inl h
    · cases hsim : cfg.simulateUploads
      · rw [hsim] at h; simp at h
      · rw [hsim] at h
        simp only [if_true] at h
        rcases List.mem_map.mp h with ⟨it, hitmem, hite⟩
        exact Or.inr ⟨it, hitmem, hite.symm⟩
  constructor
  · rw [hfiles, distinctFiles]
    apply List.pairwise_append.mpr
    refine ⟨hs.files_nodup, hq, ?_⟩
    intro f hf it hit
    have h1 := hs.files_lt f hf
    have h2 := (hfresh it hit).1
    omega
  · rw [hclocks, distinctClocks]
    apply List.pairwise_append.mpr
    refine ⟨hs.clocks_nodup, ?_, ?_⟩
    · cases hsim : cfg.simulateUploads
      · simp
      · simp only [if_true]
        exact distinctClocks_of_items hq
    · intro c hc c2 hc2
      cases hsim : cfg.simulateUploads
      · rw [hsim] at hc2; simp at hc2
      · rw [hsim] at hc2
        simp only [if_true] at hc2
        rcases List.mem_map.mp hc2 with ⟨it, hitmem, hite⟩
        have h1 := hs.clocks_lt c hc
        have h2 := (hfresh it hitmem).1
        rw [← hite]
        show c.uploadId ≠ it.uploadId
        omega
  · rw [hfiles, hnext]
    intro f hf
    rcases List.mem_append.mp hf with h | h
    · have := hs.files_lt f h; omega
    · have := (hfresh f h).2; omega
  · rw [hnext]
    intro c hc
    rcases hmemclk c hc with h | ⟨it, hitmem, hite⟩
    · have := hs.clocks_lt c h; omega
    · have := (hfresh it hitmem).2
      rw [hite]
      show it.uploadId < s.nextId + inputs.length
      omega
  · rw [hpend, hnext]
    intro p hp
    have := hs.purges_lt p hp
    omega
  · intro c hc
    rcases hmemclk c hc with h | ⟨it, hitmem, hite⟩
    · obtain ⟨f, hfmem, hrest⟩ := hs.clock_item c h
      refine ⟨f, ?_, hrest⟩
      rw [hfiles]
      exact List.mem_append_left _ hfmem
    · obtain ⟨hp0, hst, hco, hex⟩ := hprops it hitmem
      refine ⟨it, ?_, ?_, ?_, hco, hex, ?_⟩
      · rw [hfiles]
        exact List.mem_append_right _ hitmem
      · rw [hite]; rfl
      · rw [hite]; rfl
      · rw [hite, hp0]
        show (0 : ℚ) = ((0 : Nat) : ℚ) / (it.totalChunks : ℚ) * 100
        norm_num
  · intro c hc
    rcases hmemclk c hc with h | ⟨it, hitmem, hite⟩
    · exact hs.clock_cnt c h
    · rw [hite]
      show 0 < it.totalChunks
      exact htot it hitmem
  · rw [hpend]
    intro p hp c hc
    rcases hmemclk c hc with h | ⟨it, hitmem, hite⟩
    · exact hs.purge_clockfree p hp c h
    · have h1 := hs.purges_lt p hp
      have h2 := (hfresh it hitmem).1
      rw [hite]
      show it.uploadId ≠ p.1
      omega
  · rw [hfiles]
    intro f hf
    rcases List.mem_append.mp hf with h | h
    · exact hs.item_bounds f h
    · obtain ⟨hp0, hst, hco, hex⟩ := hprops f h
      refine ⟨?_, ?_, htot f h⟩
      · rw [hp0]
      · rw [hp0]; norm_num

/-- Every step of the event loop preserves the invariant. -/
theorem inv_step (cfg : Config) {s s' : EngineState} (hs : Inv s)
    (st : Step cfg s s') : Inv s' := by
  cases st with
  | submit inputs hv => exact inv_submit cfg s inputs hv hs
  | remove uid b h => exact inv_remove s uid b h hs
  | clear => exact inv_clear s hs
  | tick uid => exact inv_tick s uid hs
  | purge => exact inv_purge s hs

/-- Every reachable state satisfies the invariant. -/
theorem reachable_inv (cfg : Config) {s : EngineState} (hr : Reachable cfg s) : Inv s := by
  induction hr with
  | base => exact inv_init
  | step _ st ih => exact inv_step cfg ih st

/-! ## Dead and unclocked ids along traces -/

/-- An issued id with no present item. -/
def deadId (uid : Nat) (s : EngineState) : Prop :=
  uid < s.nextId ∧ ∀ f ∈ s.files, f.uploadId ≠ uid

/-- An issued id with no registered interval. -/
def unclockedId (uid : Nat) (s : EngineState) : Prop :=
  uid < s.nextId ∧ ∀ c ∈ s.clocks, c.uploadId ≠ uid

theorem purgeFire_clocks (s : EngineState) : (purgeFire s).clocks = s.clocks := by
  unfold purgeFire
  cases hp : s.pendingPurges with
  | nil => rfl
  | cons p rest => rcases p with ⟨uid, b⟩; rfl

theorem purgeFire_nextId (s : EngineState) : (purgeFire s).nextId = s.nextId := by
  unfold purgeFire
  cases hp : s.pendingPurges with
  | nil => rfl
  | cons p rest => rcases p with ⟨uid, b⟩; rfl

/-- A clock present after `addFiles` is an old clock or the clock of one
of the newly admitted items. -/
theorem mem_addFiles_clocks (cfg : Config) (s : EngineState)
    (inputs : List (FileInput × ℚ)) (c : Clock)
    (hc : c ∈ (addFiles cfg s inputs).clocks) :
    c ∈ s.clocks ∨ ∃ it ∈ (admitAll cfg s inputs).2, c = clkOf it := by
  rw [addFiles_clocks] at hc
  rcases List.mem_append.mp hc with h | h
  · exact Or.inl h
  · cases hsim : cfg.simulateUploads
    · rw [hsim] at h; simp at h
    · rw [hsim] at h
      simp only [if_true] at h
      rcases List.mem_map.mp h with ⟨it, hitmem, hite⟩
      exact Or.inr ⟨it, hitmem, hite.symm⟩

/-- An item present after `addFiles` is an old item or a newly admitted
one. -/
theorem mem_addFiles_files (cfg : Config) (s : EngineState)
    (inputs : List (FileInput × ℚ)) (f : FileItem)
    (hf : f ∈ (addFiles cfg s inputs).files) :
    f ∈ s.files ∨ f ∈ (admitAll cfg s inputs).2 := by
  rw [addFiles_files] at hf
  exact List.mem_append.mp hf

/-- Each step preserves deadness of an id: a dead id never gets a new
item (fresh ids are strictly larger). -/
theorem step_deadId (cfg : Config) (uid : Nat) {s s' : EngineState}
    (st : Step cfg s s') (h : deadId uid s) : deadId uid s' := by
  obtain ⟨hlt, habs⟩ := h
  cases st with
  | submit inputs hv =>
    rw [deadId, addFiles_nextId]
    refine ⟨by omega, ?_⟩
    intro f hf
    rcases mem_addFiles_files cfg s inputs f hf with hold | hnew
    · exact habs f hold
    · have := (admitAll_ids_fresh cfg s inputs f hnew).1
      omega
  | remove uid2 b h2 =>
    rw [deadId, removeFile_nextId, removeFile_files]
    refine ⟨hlt, ?_⟩
    intro f' hf'
    rcases List.mem_map.mp hf' with ⟨f, hfmem, hfe⟩
    have hid : f'.uploadId = f.uploadId := by
      rw [← hfe]
      by_cases hc : f.uploadId = uid2 <;> simp [hc]
    rw [hid]
    exact habs f hfmem
  | clear =>
    exact ⟨hlt, by intro f hf; cases hf⟩
  | tick uid2 =>
    rw [deadId, tickFire_nextId]
    refine ⟨hlt, ?_⟩
    intro f' hf'
    have hmm : f'.uploadId ∈ (tickFire s uid2).files.map FileItem.uploadId :=
      List.mem_map_of_mem FileItem.uploadId hf'
    rw [tickFire_ids] at hmm
    rcases List.mem_map.mp hmm with ⟨f, hfmem, hfe⟩
    rw [← hfe]
    exact habs f hfmem
  | purge =>
    rw [deadId, purgeFire_nextId]
    refine ⟨hlt, ?_⟩
    cases hp : s.pendingPurges with
    | nil =>
      rw [purgeFire_empty s hp]
      exact habs
    | cons p rest =>
      rcases p with ⟨uid2, b2⟩
      rw [purgeFire_eq s uid2 b2 rest hp]
      intro f hf
      exact habs f (List.mem_of_mem_filter hf)

/-- Each step preserves unclockedness of an id: a dead clock key never
gets a new interval. -/
theorem step_unclockedId (cfg : Config) (uid : Nat) {s s' : EngineState}
    (st : Step cfg s s') (h : unclockedId uid s) : unclockedId uid s' := by
  obtain ⟨hlt, habs⟩ := h
  cases st with
  | submit inputs hv =>
    rw [unclockedId, addFiles_nextId]
    refine ⟨by omega, ?_⟩
    intro c hc
    rcases mem_addFiles_clocks cfg s inputs c hc with hold | ⟨it, hitmem, hite⟩
    · exact habs c hold
    · have := (admitAll_ids_fresh cfg s inputs it hitmem).1
      rw [hite]
      show it.uploadId ≠ uid
      omega
  | remove uid2 b h2 =>
    rw [unclockedId, removeFile_nextId]
    refine ⟨hlt, ?_⟩
    intro c hc
    exact habs c ((mem_removeFile_clocks s uid2 b c).mp hc).1
  | clear =>
    exact ⟨hlt, by intro c hc; cases hc⟩
  | tick uid2 =>
    rw [unclockedId, tickFire_nextId]
    refine ⟨hlt, ?_⟩
    intro c' hc'
    cases hfind : s.clocks.find? (fun c => c.uploadId == uid2) with
    | none =>
      rw [tickFire_of_none s uid2 hfind] at hc'
      exact habs c' hc'
    | some c =>
      rw [tickFire_of_some s uid2 c hfind] at hc'
      by_cases hdone : decide
          (1 ≤ min (((c.currentChunk + 1 : Nat) : ℚ) / (c.totalChunks : ℚ)) 1) = true
      · by_cases hhit : s.files.any (fun f => f.uploadId == uid2) = true
        · rw [tickApply_complete s uid2 c hhit hdone] at hc'
          exact habs c' (List.mem_of_mem_filter hc')
        · have hhitf : (s.files.any fun f => f.uploadId == uid2) = false := by
            cases hx : s.files.any (fun f => f.uploadId == uid2)
            · rfl
            · exact absurd hx hhit
          have : tickApply s uid2 c = { s with
              files := s.files.map (fun f => if f.uploadId == uid2
                then advanceItem f (c.currentChunk + 1) c.totalChunks else f),
              clocks := s.clocks.map (fun c2 => if c2.uploadId == uid2
                then { c2 with currentChunk := c.currentChunk + 1 } else c2) } := by
            unfold tickApply
            simp only [hhitf, Bool.false_and, Bool.false_eq_true, if_false]
          rw [this] at hc'
          rcases List.mem_map.mp hc' with ⟨c2, hc2mem, hc2e⟩
          have : c'.uploadId = c2.uploadId := by
            rw [← hc2e]
            by_cases hx : c2.uploadId = uid2 <;> simp [hx]
          rw [this]
          exact habs c2 hc2mem
      · have hdonef : decide
            (1 ≤ min (((c.currentChunk + 1 : Nat) : ℚ) / (c.totalChunks : ℚ)) 1) = false := by
          cases hx : decide
              (1 ≤ min (((c.currentChunk + 1 : Nat) : ℚ) / (c.totalChunks : ℚ)) 1)
          · rfl
          · exact absurd hx hdone
        rw [tickApply_incomplete s uid2 c hdonef] at hc'
        rcases List.mem_map.mp hc' with ⟨c2, hc2mem, hc2e⟩
        have : c'.uploadId = c2.uploadId := by
          rw [← hc2e]
          by_cases hx : c2.uploadId = uid2 <;> simp [hx]
        rw [this]
        exact habs c2 hc2mem
  | purge =>
    rw [unclockedId, purgeFire_nextId, purgeFire_clocks]
    exact ⟨hlt, habs⟩

/-- A step from a state where no present item carries `uid` emits no
`file-removed` for `uid`. -/
theorem step_no_new_removed (cfg : Config) (uid : Nat) {s s' : EngineState}
    (st : Step cfg s s') (habs : ∀ f ∈ s.files, f.uploadId ≠ uid) :
    ∀ nm b2, Event.fileRemoved uid nm b2 ∈ s'.events →
      Event.fileRemoved uid nm b2 ∈ s.events := by
  intro nm b2 hm
  cases st with
  | submit inputs hv =>
    rw [addFiles_events] at hm
    rcases List.mem_append.mp hm with h | h
    · exact h
    · rcases List.mem_map.mp h with ⟨it, _, hite⟩
      rw [evOf] at hite
      cases hite
  | remove uid2 b h2 =>
    rw [removeFile_events] at hm
    exact hm
  | clear => exact hm
  | tick uid2 =>
    cases hfind : s.clocks.find? (fun c => c.uploadId == uid2) with
    | none => rw [tickFire_of_none s uid2 hfind] at hm; exact hm
    | some c =>
      rw [tickFire_of_some s uid2 c hfind] at hm
      unfold tickApply at hm
      by_cases hcond : ((s.files.any fun f => f.uploadId == uid2) && decide
          (1 ≤ min (((c.currentChunk + 1 : Nat) : ℚ) / (c.totalChunks : ℚ)) 1)) = true
      · simp only [hcond, if_true] at hm
        rcases List.mem_append.mp hm with h | h
        · exact h
        · rcases List.mem_singleton.mp h with h
          cases h
      · have hcf : ((s.files.any fun f => f.uploadId == uid2) && decide
            (1 ≤ min (((c.currentChunk + 1 : Nat) : ℚ) / (c.totalChunks : ℚ)) 1)) = false := by
          cases hx : ((s.files.any fun f => f.uploadId == uid2) && decide
              (1 ≤ min (((c.currentChunk + 1 : Nat) : ℚ) / (c.totalChunks : ℚ)) 1))
          · rfl
          · exact absurd hx hcond
        simp only [hcf, Bool.false_eq_true, if_false] at hm
        exact hm
  | purge =>
    cases hp : s.pendingPurges with
    | nil => rw [purgeFire_empty s hp] at hm; exact hm
    | cons p rest =>
      rcases p with ⟨uid2, b3⟩
      rw [purgeFire_eq s uid2 b3 rest hp] at hm
      cases hf : s.files.find? (fun f => f.uploadId == uid2) with
      | none => simp only [hf] at hm; exact hm
      | some f =>
        simp only [hf] at hm
        rcases List.mem_append.mp hm with h | h
        · exact h
        · rcases List.mem_singleton.mp h with h
          cases h
          have hfmem : f ∈ s.files := List.mem_of_find?_eq_some hf
          have hfuid : f.uploadId = uid := by simpa using List.find?_some hf
          exact absurd hfuid (habs f hfmem)

/-- A step from a state where no registered clock carries `uid` emits no
`file-completed` for `uid`. -/
theorem step_no_new_completed (cfg : Config) (uid : Nat) {s s' : EngineState}
    (st : Step cfg s s') (habs : ∀ c ∈ s.clocks, c.uploadId ≠ uid) :
    Event.fileCompleted uid ∈ s'.events → Event.fileCompleted uid ∈ s.events := by
  intro hm
  cases st with
  | submit inputs hv =>
    rw [addFiles_events] at hm
    rcases List.mem_append.mp hm with h | h
    · exact h
    · rcases List.mem_map.mp h with ⟨it, _, hite⟩
      rw [evOf] at hite
      cases hite
  | remove uid2 b h2 =>
    rw [removeFile_events] at hm
    exact hm
  | clear => exact hm
  | tick uid2 =>
    cases hfind : s.clocks.find? (fun c => c.uploadId == uid2) with
    | none => rw [tickFire_of_none s uid2 hfind] at hm; exact hm
    | some c =>
      have hcmem : c ∈ s.clocks := List.mem_of_find?_eq_some hfind
      have hcuid : c.uploadId = uid2 := by simpa using List.find?_some hfind
      rw [tickFire_of_some s uid2 c hfind] at hm
      unfold tickApply at hm
      by_cases hcond : ((s.files.any fun f => f.uploadId == uid2) && decide
          (1 ≤ min (((c.currentChunk + 1 : Nat) : ℚ) / (c.totalChunks : ℚ)) 1)) = true
      · simp only [hcond, if_true] at hm
        rcases List.mem_append.mp hm with h | h
        · exact h
        · rcases List.mem_singleton.mp h with h
          cases h
          exact absurd hcuid (habs c hcmem)
      · have hcf : ((s.files.any fun f => f.uploadId == uid2) && decide
            (1 ≤ min (((c.currentChunk + 1 : Nat) : ℚ) / (c.totalChunks : ℚ)) 1)) = false := by
          cases hx : ((s.files.any fun f => f.uploadId == uid2) && decide
              (1 ≤ min (((c.currentChunk + 1 : Nat) : ℚ) / (c.totalChunks : ℚ)) 1))
          · rfl
          · exact absurd hx hcond
        simp only [hcf, Bool.false_eq_true, if_false] at hm
        exact hm
  | purge =>
    cases hp : s.pendingPurges with
    | nil => rw [purgeFire_empty s hp] at hm; exact hm
    | cons p rest =>
      rcases p with ⟨uid2, b3⟩
      rw [purgeFire_eq s uid2 b3 rest hp] at hm
      cases hf : s.files.find? (fun f => f.uploadId == uid2) with
      | none => simp only [hf] at hm; exact hm
      | some f =>
        simp only [hf] at hm
        rcases List.mem_append.mp hm with h | h
        · exact h
        · rcases List.mem_singleton.mp h with h
          cases h

/-- Along any trace from a state where `uid` is dead, no `file-removed`
for `uid` is ever emitted (and `uid` stays dead). -/
theorem trace_no_new_removed (cfg : Config) (uid : Nat) {s s' : EngineState}
    (tr : Relation.ReflTransGen (Step cfg) s s') (h : deadId uid s) :
    deadId uid s' ∧ ∀ nm b2, Event.fileRemoved uid nm b2 ∈ s'.events →
      Event.fileRemoved uid nm b2 ∈ s.events := by
  induction tr with
  | refl => exact ⟨h, fun _ _ hm => hm⟩
  | tail hab hbc ih =>
    obtain ⟨hdead, hsil⟩ := ih
    refine ⟨step_deadId cfg uid hbc hdead, ?_⟩
    intro nm b2 hm
    exact hsil nm b2 (step_no_new_removed cfg uid hbc hdead.2 nm b2 hm)

/-- Along any trace from a state where `uid` has no registered clock, no
`file-completed` for `uid` is ever emitted (and `uid` stays clockless). -/
theorem trace_no_new_completed (cfg : Config) (uid : Nat) {s s' : EngineState}
    (tr : Relation.ReflTransGen (Step cfg) s s') (h : unclockedId uid s) :
    unclockedId uid s' ∧ (Event.fileCompleted uid ∈ s'.events →
      Event.fileCompleted uid ∈ s.events) := by
  induction tr with
  | refl => exact ⟨h, fun hm => hm⟩
  | tail hab hbc ih =>
    obtain ⟨hun, hsil⟩ := ih
    refine ⟨step_unclockedId cfg uid hbc hun, ?_⟩
    intro hm
    exact hsil (step_no_new_completed cfg uid hbc hun.2 hm)

end JuiceboxFileList

namespace JuiceboxFileList

/-! ## Concrete scenario states -/

/-- The sample file of the spec's scenarios. -/
def fA : FileInput := { name := "a.txt", size := 1024, type := "text/plain" }

/-- Deterministic two-chunk configuration (`chunkRange = [2, 2]`). -/
def cfg2 : Config := { simulateUploads := true, chunkRange := (2, 2) }

/-- Configuration with transfer simulation disabled. -/
def cfgOff : Config := { simulateUploads := false, chunkRange := (2, 2) }

/-- The queue right after admitting `fA` under `cfg2`. -/
def sAdmit2 : EngineState := addFiles cfg2 initState [(fA, 0)]

/-- The admitted item of `sAdmit2`. -/
def itA : FileItem :=
  { uploadId := 0, name := "a.txt", size := 1024, type := "text/plain",
    progress := 0, status := "Initializing...", isComplete := false,
    totalChunks := 2, isExiting := false }

theorem sAdmit2_eval :
    sAdmit2 = ⟨[itA], [⟨0, 2, 0⟩], [], 1,
      [Event.fileAdded 0 "a.txt" 1024 "text/plain" 2]⟩ := by
  simp [sAdmit2, addFiles, admitAll, admitOne, cfg2, fA, itA, initState,
    randomChunkTotal, clampedMin, clampedMax]

/-- The queue after the first (non-completing) tick of `sAdmit2`. -/
def sTick1 : EngineState := tickFire sAdmit2 0

/-- The half-transferred item after one of two chunks. -/
def itA1 : FileItem :=
  { uploadId := 0, name := "a.txt", size := 1024, type := "text/plain",
    progress := 50, status := "Uploading chunk 1/2", isComplete := false,
    totalChunks := 2, isExiting := false }

theorem sTick1_eval :
    sTick1 = ⟨[itA1], [⟨0, 2, 1⟩], [], 1,
      [Event.fileAdded 0 "a.txt" 1024 "text/plain" 2]⟩ := by
  rw [sTick1, sAdmit2_eval]
  rw [tickFire]
  show tickApply _ 0 ⟨0, 2, 0⟩ = _
  rw [tickApply]
  norm_num [advanceItem, itA, itA1]
  decide

/-! ## The claims -/

/-- Draws for a single-file submission with `Math.random() = 0`. -/
theorem validDraws_single : validDraws [(fA, 0)] := by
  intro p hp
  rcases List.mem_singleton.mp hp with rfl
  exact ⟨le_refl 0, by norm_num⟩

/-- The one-file admission state is reachable. -/
theorem sAdmit2_reachable : Reachable cfg2 sAdmit2 :=
  Reachable.step Reachable.base (Step.submit initState [(fA, 0)] validDraws_single)

/-- C7: a tick delivered for an id with no present item is a silent
no-op: the item list, the notification trace and the scheduled purges are
unchanged — nothing is created or resurrected, nothing is emitted, and
the handler is total (no error path). -/
theorem tick_missing_item_noop (s : EngineState) (uid : Nat)
    (h : ∀ f ∈ s.files, f.uploadId ≠ uid) :
    (tickFire s uid).files = s.files ∧
    (tickFire s uid).events = s.events ∧
    (tickFire s uid).pendingPurges = s.pendingPurges := by
  cases hfind : s.clocks.find? (fun c => c.uploadId == uid) with
  | none => rw [tickFire_of_none s uid hfind]; exact ⟨rfl, rfl, rfl⟩
  | some c =>
    rw [tickFire_of_some s uid c hfind]
    have hhit : (s.files.any fun f => f.uploadId == uid) = false := by
      apply List.any_eq_false.mpr
      intro f hf
      simpa using h f hf
    have heq : tickApply s uid c = { s with
        files := s.files.map (fun f => if f.uploadId == uid
          then advanceItem f (c.currentChunk + 1) c.totalChunks else f),
        clocks := s.clocks.map (fun c2 => if c2.uploadId == uid
          then { c2 with currentChunk := c.currentChunk + 1 } else c2) } := by
      unfold tickApply
      simp only [hhit, Bool.false_and, Bool.false_eq_true, if_false]
    rw [heq]
    refine ⟨?_, rfl, rfl⟩
    apply map_eq_self
    intro f hf
    have hb : (f.uploadId == uid) = false := by simpa using h f hf
    rw [hb]
    simp

/-- A state holding the item of `sAdmit2` and an orphaned clock keyed by
an absent id (the in-flight-tick race configuration). -/
def sGhost : EngineState := ⟨[itA], [⟨5, 3, 0⟩], [], 6, []⟩

/-- The C7 scenario at a concrete input: a tick for the absent id 5
changes no item, emits nothing and schedules nothing. -/
theorem tick_missing_item_noop_witness :
    (tickFire sGhost 5).files = sGhost.files ∧
    (tickFire sGhost 5).events = sGhost.events ∧
    (tickFire sGhost 5).pendingPurges = sGhost.pendingPurges :=
  tick_missing_item_noop sGhost 5 (by decide)

/-- C2: admitting `n` files appends exactly `n` new items after the
existing ones, in submission order, each Initializing with zero
progress; it registers exactly `n` new clocks (simulation enabled),
dispatches exactly `n` `file-added` notifications carrying id, name,
size, type and the sampled total, leaves every existing item, clock and
event in place, and schedules nothing. -/
theorem addFiles_spec (cfg : Config) (hsim : cfg.simulateUploads = true)
    (s : EngineState) (inputs : List (FileInput × ℚ)) :
    ∃ newItems : List FileItem,
      (addFiles cfg s inputs).files = s.files ++ newItems ∧
      newItems.length = inputs.length ∧
      newItems.map FileItem.name = inputs.map (fun p => p.1.name) ∧
      newItems.map FileItem.size = inputs.map (fun p => p.1.size) ∧
      newItems.map FileItem.type = inputs.map (fun p => p.1.type) ∧
      newItems.map FileItem.uploadId = List.range' s.nextId inputs.length ∧
      (∀ it ∈ newItems, it.progress = 0 ∧ it.status = "Initializing..." ∧
        it.isComplete = false ∧ it.isExiting = false) ∧
      (addFiles cfg s inputs).clocks = s.clocks ++ newItems.map clkOf ∧
      (addFiles cfg s inputs).events = s.events ++ newItems.map evOf ∧
      (addFiles cfg s inputs).pendingPurges = s.pendingPurges := by
  refine ⟨(admitAll cfg s inputs).2, addFiles_files cfg s inputs,
    admitAll_length cfg inputs s, admitAll_names cfg inputs s,
    admitAll_sizes cfg inputs s, admitAll_types cfg inputs s,
    admitAll_ids cfg inputs s, admitAll_item_props cfg inputs s, ?_,
    addFiles_events cfg s inputs, addFiles_pending cfg s inputs⟩
  rw [addFiles_clocks, hsim]
  simp

/-- The C2 scenario at a concrete input: admitting one file to the
fresh queue. -/
theorem addFiles_spec_witness :
    ∃ newItems : List FileItem,
      (addFiles cfg2 initState [(fA, 0)]).files = initState.files ++ newItems ∧
      newItems.length = [((fA : FileInput), (0 : ℚ))].length ∧
      newItems.map FileItem.name = [((fA : FileInput), (0 : ℚ))].map (fun p => p.1.name) ∧
      newItems.map FileItem.size = [((fA : FileInput), (0 : ℚ))].map (fun p => p.1.size) ∧
      newItems.map FileItem.type = [((fA : FileInput), (0 : ℚ))].map (fun p => p.1.type) ∧
      newItems.map FileItem.uploadId =
        List.range' initState.nextId [((fA : FileInput), (0 : ℚ))].length ∧
      (∀ it ∈ newItems, it.progress = 0 ∧ it.status = "Initializing..." ∧
        it.isComplete = false ∧ it.isExiting = false) ∧
      (addFiles cfg2 initState [(fA, 0)]).clocks = initState.clocks ++ newItems.map clkOf ∧
      (addFiles cfg2 initState [(fA, 0)]).events = initState.events ++ newItems.map evOf ∧
      (addFiles cfg2 initState [(fA, 0)]).pendingPurges = initState.pendingPurges :=
  addFiles_spec cfg2 rfl initState [(fA, 0)]

/-- C4: immediately after a clear the queue is empty and no clock
remains registered; the notification trace is untouched (zero
`file-removed` echoes), and no item deleted by the clear ever receives a
`file-removed` notification along any continuation of the run. -/
theorem clear_spec (cfg : Config) (s : EngineState) (hr : Reachable cfg s) :
    (handleClearFiles s).files = [] ∧
    (handleClearFiles s).clocks = [] ∧
    (handleClearFiles s).events = s.events ∧
    (∀ f ∈ s.files, ∀ s' : EngineState,
      Relation.ReflTransGen (Step cfg) (handleClearFiles s) s' →
      ∀ nm b2, Event.fileRemoved f.uploadId nm b2 ∈ s'.events →
        Event.fileRemoved f.uploadId nm b2 ∈ s.events) := by
  refine ⟨rfl, rfl, rfl, ?_⟩
  intro f hf s' htr nm b2 hm
  have hinv := reachable_inv cfg hr
  have hdead : deadId f.uploadId (handleClearFiles s) := by
    refine ⟨hinv.files_lt f hf, ?_⟩
    intro g hg
    cases hg
  exact (trace_no_new_removed cfg f.uploadId htr hdead).2 nm b2 hm

/-- The C4 scenario at a concrete input: clearing the one-item queue. -/
theorem clear_spec_witness :
    (handleClearFiles sAdmit2).files = [] ∧
    (handleClearFiles sAdmit2).clocks = [] ∧
    (handleClearFiles sAdmit2).events = sAdmit2.events ∧
    (∀ f ∈ sAdmit2.files, ∀ s' : EngineState,
      Relation.ReflTransGen (Step cfg2) (handleClearFiles sAdmit2) s' →
      ∀ nm b2, Event.fileRemoved f.uploadId nm b2 ∈ s'.events →
        Event.fileRemoved f.uploadId nm b2 ∈ sAdmit2.events) :=
  clear_spec cfg2 sAdmit2 sAdmit2_reachable

/-- An item whose flags say neither complete nor exiting, still showing
the admission status, is in the Initializing phase. -/
theorem phase_init {f : FileItem} (hc : f.isComplete = false)
    (hx : f.isExiting = false) (hst : f.status = "Initializing...") :
    f.phase = Phase.initializing := by
  simp [FileItem.phase, hc, hx, hst]

/-- An exiting item is in the Exiting phase. -/
theorem phase_exiting {f : FileItem} (hx : f.isExiting = true) :
    f.phase = Phase.exiting := by
  simp [FileItem.phase, hx]

/-- C8 (amended): with `simulateTransfers = false`, admission never
starts a clock; every reachable state has an empty clock registry and
every present item keeps zero progress, the `isComplete = false` flag
and the admission status text — its phase is Initializing, or Exiting
when an explicit removal marked it, but never Transferring or
Complete. -/
theorem sim_off_invariant (cfg : Config) (hsim : cfg.simulateUploads = false)
    (s : EngineState) (hr : Reachable cfg s) :
    s.clocks = [] ∧ ∀ f ∈ s.files, f.isComplete = false ∧ f.progress = 0 ∧
      f.status = "Initializing..." ∧
      (f.phase = Phase.initializing ∨ f.phase = Phase.exiting) := by
  induction hr with
  | base => exact ⟨rfl, by intro f hf; cases hf⟩
  | @step s0 s1 hr0 st ih =>
    obtain ⟨hclk, hitems⟩ := ih
    cases st with
    | submit inputs hv =>
      constructor
      · rw [addFiles_clocks, hsim, hclk]
        simp
      · intro f hf
        rcases mem_addFiles_files _ _ inputs f hf with hold | hnew
        · exact hitems f hold
        · obtain ⟨hp0, hst, hco, hex⟩ := admitAll_item_props cfg inputs _ f hnew
          exact ⟨hco, hp0, hst, Or.inl (phase_init hco hex hst)⟩
    | remove uid b h2 =>
      constructor
      · rw [removeFile_clocks_absent _ uid b (by rw [hclk]; intro c hc; cases hc)]
        exact hclk
      · intro f' hf'
        rw [removeFile_files] at hf'
        rcases List.mem_map.mp hf' with ⟨f, hfmem, hfe⟩
        obtain ⟨hco, hp0, hst, _⟩ := hitems f hfmem
        by_cases hu : f.uploadId = uid
        · have hb : (f.uploadId == uid) = true := by simpa using hu
          rw [← hfe, hb]
          simp only [if_true]
          exact ⟨hco, hp0, hst, Or.inr (phase_exiting rfl)⟩
        · have hb : (f.uploadId == uid) = false := by simpa using hu
          rw [← hfe, hb]
          simp only [Bool.false_eq_true, if_false]
          exact hitems f hfmem
    | clear =>
      exact ⟨rfl, by intro f hf; cases hf⟩
    | tick uid =>
      rw [tickFire_no_clock _ uid (by rw [hclk]; intro c hc; cases hc)]
      exact ⟨hclk, hitems⟩
    | purge =>
      constructor
      · rw [purgeFire_clocks]
        exact hclk
      · intro f hf
        cases hpp : s0.pendingPurges with
        | nil =>
          rw [purgeFire_empty s0 hpp] at hf
          exact hitems f hf
        | cons p rest =>
          rcases p with ⟨uid2, b2⟩
          rw [purgeFire_eq s0 uid2 b2 rest hpp] at hf
          exact hitems f (List.mem_of_mem_filter hf)

/-- The simulation-off queue after admitting `fA` and requesting its
removal. -/
def sOffExit : EngineState := removeFile (addFiles cfgOff initState [(fA, 0)]) 0 true

theorem sOffExit_eval :
    sOffExit = ⟨[⟨0, "a.txt", 1024, "text/plain", 0, "Initializing...", false, 2, true⟩],
      [], [(0, true)], 1, [Event.fileAdded 0 "a.txt" 1024 "text/plain" 2]⟩ := by
  simp [sOffExit, removeFile, addFiles, admitAll, admitOne, cfgOff, fA, initState,
    randomChunkTotal, clampedMin, clampedMax]

/-- C8 as stated is false on the code: with `simulateTransfers = false`
an explicit removal still marks an item Exiting, so a reachable state
under this configuration contains an item in a phase other than
Initializing. -/
theorem sim_off_invariant_cex :
    Reachable cfgOff sOffExit ∧
    sOffExit.files.map FileItem.phase = [Phase.exiting] := by
  constructor
  · refine Reachable.step (Reachable.step Reachable.base
      (Step.submit initState [(fA, 0)] validDraws_single)) (Step.remove _ 0 true ?_)
    rw [addFiles_nextId]
    decide
  · rw [sOffExit_eval]
    decide

/-- The C8 scenario at a concrete input: the simulation-off one-item
admission state. -/
theorem sim_off_invariant_witness :
    (addFiles cfgOff initState [(fA, 0)]).clocks = [] ∧
    ∀ f ∈ (addFiles cfgOff initState [(fA, 0)]).files, f.isComplete = false ∧
      f.progress = 0 ∧ f.status = "Initializing..." ∧
      (f.phase = Phase.initializing ∨ f.phase = Phase.exiting) :=
  sim_off_invariant cfgOff rfl (addFiles cfgOff initState [(fA, 0)])
    (Reachable.step Reachable.base (Step.submit initState [(fA, 0)] validDraws_single))

/-- C1 (amended): completion never triggers removal: a tick never
deletes an item from the queue, never marks one exiting, and never
schedules a purge; and an engine with no clocks and no pending purges —
as after a lone item's completing tick — is changed by no sequence of
internal timer callbacks at all, so a completed item stays in the queue
until an explicit removal request or clear. -/
theorem completion_does_not_remove (s : EngineState) (uid : Nat) :
    (tickFire s uid).files.map FileItem.uploadId = s.files.map FileItem.uploadId ∧
    (tickFire s uid).files.map FileItem.isExiting = s.files.map FileItem.isExiting ∧
    (tickFire s uid).pendingPurges = s.pendingPurges ∧
    (s.clocks = [] → s.pendingPurges = [] →
      ∀ tr : List InternalAction, internalRun s tr = s) :=
  ⟨tickFire_ids s uid, tickFire_isExiting s uid, tickFire_pending s uid,
    fun hc hp => internalRun_quiescent s hc hp⟩

/-- The queue after the completing (second) tick of the `[2, 2]`
scenario. -/
def sDone : EngineState := tickFire sTick1 0

/-- The completed item. -/
def itA2 : FileItem :=
  { uploadId := 0, name := "a.txt", size := 1024, type := "text/plain",
    progress := 100, status := "Upload Complete", isComplete := true,
    totalChunks := 2, isExiting := false }

theorem sDone_eval :
    sDone = ⟨[itA2], [], [], 1,
      [Event.fileAdded 0 "a.txt" 1024 "text/plain" 2, Event.fileCompleted 0]⟩ := by
  rw [sDone, sTick1_eval]
  rw [tickFire]
  show tickApply _ 0 ⟨0, 2, 1⟩ = _
  rw [tickApply]
  norm_num [advanceItem, itA1, itA2]

/-- C1 as stated is false on the code: after its transfer completes the
item is still present and not exiting, no purge is scheduled, and no
sequence of internal timer callbacks (interval ticks, deferred purges)
ever removes it — completion alone never leads to the item's removal. -/
theorem completion_does_not_remove_cex :
    sDone.files.map FileItem.isExiting = [false] ∧
    sDone.files.map FileItem.phase = [Phase.complete] ∧
    sDone.pendingPurges = [] ∧
    ¬ ∃ tr : List InternalAction,
      ((internalRun sDone tr).files.all (fun f => !(f.uploadId == 0))) = true := by
  refine ⟨?_, ?_, ?_, ?_⟩
  · rw [sDone_eval]; decide
  · rw [sDone_eval]; decide
  · rw [sDone_eval]
  · rintro ⟨tr, htr⟩
    have hq := internalRun_quiescent sDone (by rw [sDone_eval]) (by rw [sDone_eval]) tr
    rw [hq, sDone_eval] at htr
    exact absurd htr (by decide)

/-- C10: a deferred purge that fires right after a clear finds no item:
it dispatches no `file-removed`, the queue stays empty, only its pending
entry is consumed — and for any id issued before the clear, no
continuation of the run ever emits `file-removed` for it. -/
theorem purge_after_clear_silent (cfg : Config) (s : EngineState) (uid : Nat)
    (h : uid < s.nextId) :
    (purgeFire (handleClearFiles s)).events = s.events ∧
    (purgeFire (handleClearFiles s)).files = [] ∧
    (purgeFire (handleClearFiles s)).pendingPurges = s.pendingPurges.tail ∧
    (∀ s' : EngineState,
      Relation.ReflTransGen (Step cfg) (handleClearFiles s) s' →
      ∀ nm b2, Event.fileRemoved uid nm b2 ∈ s'.events →
        Event.fileRemoved uid nm b2 ∈ s.events) := by
  have htrace : ∀ s' : EngineState,
      Relation.ReflTransGen (Step cfg) (handleClearFiles s) s' →
      ∀ nm b2, Event.fileRemoved uid nm b2 ∈ s'.events →
        Event.fileRemoved uid nm b2 ∈ s.events := by
    intro s' htr nm b2 hm
    have hdead : deadId uid (handleClearFiles s) := ⟨h, by intro g hg; cases hg⟩
    exact (trace_no_new_removed cfg uid htr hdead).2 nm b2 hm
  cases hp : s.pendingPurges with
  | nil =>
    have hp0 : (handleClearFiles s).pendingPurges = [] := hp
    rw [purgeFire_empty _ hp0]
    exact ⟨rfl, rfl, hp0, htrace⟩
  | cons p rest =>
    rcases p with ⟨uid2, b2⟩
    have hp0 : (handleClearFiles s).pendingPurges = (uid2, b2) :: rest := hp
    rw [purgeFire_eq _ uid2 b2 rest hp0]
    exact ⟨rfl, rfl, rfl, htrace⟩

/-- The queue after admitting `fA` and requesting its removal before
any tick (the item is exiting, its purge pending). -/
def sRem : EngineState := removeFile sAdmit2 0 true

/-- The C10 scenario at a concrete input: clearing while `sRem`'s purge
is pending, then letting the purge fire. -/
theorem purge_after_clear_silent_witness :
    (purgeFire (handleClearFiles sRem)).events = sRem.events ∧
    (purgeFire (handleClearFiles sRem)).files = [] ∧
    (purgeFire (handleClearFiles sRem)).pendingPurges = sRem.pendingPurges.tail ∧
    (∀ s' : EngineState,
      Relation.ReflTransGen (Step cfg2) (handleClearFiles sRem) s' →
      ∀ nm b2, Event.fileRemoved 0 nm b2 ∈ s'.events →
        Event.fileRemoved 0 nm b2 ∈ sRem.events) :=
  purge_after_clear_silent cfg2 sRem 0 (by rw [sRem, removeFile_nextId, sAdmit2_eval]; decide)

/-- C5: in every reachable state every item's stored progress lies in
`[0, 100]` (the percentage form of `0 ≤ completedChunks ≤ targetChunks`)
and every active clock's counter is within its target; and across any
single step of the event loop, an item surviving under the same id never
loses progress, never drops `isComplete` and never drops `isExiting` —
so the phase never reverts from Complete or Exiting back to
Transferring. -/
theorem progress_invariant (cfg : Config) (s : EngineState) (hr : Reachable cfg s) :
    (∀ f ∈ s.files, 0 ≤ f.progress ∧ f.progress ≤ 100) ∧
    (∀ c ∈ s.clocks, c.currentChunk ≤ c.totalChunks) ∧
    (∀ s' : EngineState, Step cfg s s' → ∀ f ∈ s.files, ∀ f' ∈ s'.files,
      f'.uploadId = f.uploadId →
      f.progress ≤ f'.progress ∧ (f.isComplete = true → f'.isComplete = true) ∧
      (f.isExiting = true → f'.isExiting = true)) := by
  have hinv := reachable_inv cfg hr
  refine ⟨?_, ?_, ?_⟩
  · intro f hf
    exact ⟨(hinv.item_bounds f hf).1, (hinv.item_bounds f hf).2.1⟩
  · intro c hc
    exact le_of_lt (hinv.clock_cnt c hc)
  · intro s' st f hf f' hf' hid
    cases st with
    | submit inputs hv =>
      rcases mem_addFiles_files cfg s inputs f' hf' with hold | hnew
      · have : f' = f := key_inj FileItem.uploadId hinv.files_nodup hold hf hid
        rw [this]
        exact ⟨le_refl _, fun hx => hx, fun hx => hx⟩
      · have h1 := (admitAll_ids_fresh cfg s inputs f' hnew).1
        have h2 := hinv.files_lt f hf
        omega
    | remove uid b h2 =>
      rw [removeFile_files] at hf'
      rcases List.mem_map.mp hf' with ⟨f0, hf0, hfe⟩
      have hpid : f'.uploadId = f0.uploadId := by
        rw [← hfe]
        by_cases hx : f0.uploadId = uid <;> simp [hx]
      have hf0f : f0 = f :=
        key_inj FileItem.uploadId hinv.files_nodup hf0 hf (by rw [← hpid, hid])
      rw [hf0f] at hfe
      by_cases hx : f.uploadId = uid
      · have hb : (f.uploadId == uid) = true := by simpa using hx
        rw [hb] at hfe
        simp only [if_true] at hfe
        rw [← hfe]
        exact ⟨le_refl _, fun h => h, fun _ => rfl⟩
      · have hb : (f.uploadId == uid) = false := by simpa using hx
        rw [hb] at hfe
        simp only [Bool.false_eq_true, if_false] at hfe
        rw [← hfe]
        exact ⟨le_refl _, fun h => h, fun h => h⟩
    | clear => cases hf'
    | tick uid =>
      cases hfind : s.clocks.find? (fun c => c.uploadId == uid) with
      | none =>
        rw [tickFire_of_none s uid hfind] at hf'
        have : f' = f := key_inj FileItem.uploadId hinv.files_nodup hf' hf hid
        rw [this]
        exact ⟨le_refl _, fun hx => hx, fun hx => hx⟩
      | some c =>
        have hcmem : c ∈ s.clocks := List.mem_of_find?_eq_some hfind
        have hcuid : c.uploadId = uid := by simpa using List.find?_some hfind
        have hcnt : c.currentChunk < c.totalChunks := hinv.clock_cnt c hcmem
        have htot : (0 : ℚ) < (c.totalChunks : ℚ) := by
          have := Nat.lt_of_le_of_lt (Nat.zero_le _) hcnt
          exact_mod_cast this
        have hfiles' : (tickApply s uid c).files = s.files.map (fun f =>
            if f.uploadId == uid
            then advanceItem f (c.currentChunk + 1) c.totalChunks else f) := by
          unfold tickApply
          by_cases hcond : ((s.files.any fun f => f.uploadId == uid) && decide
              (1 ≤ min (((c.currentChunk + 1 : Nat) : ℚ) / (c.totalChunks : ℚ)) 1)) = true
          · simp only [hcond, if_true]
          · have hcf := Bool.eq_false_iff.mpr hcond
            simp only [hcf, Bool.false_eq_true, if_false]
        rw [tickFire_of_some s uid c hfind] at hf'
        rw [hfiles'] at hf'
        rcases List.mem_map.mp hf' with ⟨f0, hf0, hfe⟩
        have hpid : f'.uploadId = f0.uploadId := by
          rw [← hfe]
          by_cases hx : f0.uploadId = uid <;> simp [hx, advanceItem_uploadId]
        have hf0f : f0 = f :=
          key_inj FileItem.uploadId hinv.files_nodup hf0 hf (by rw [← hpid, hid])
        rw [hf0f] at hfe
        by_cases hx : f.uploadId = uid
        · have hb : (f.uploadId == uid) = true := by simpa using hx
          rw [hb] at hfe
          simp only [if_true] at hfe
          obtain ⟨fm, hfmmem, hfmid, hfmtot, hfmcomp, hfmex, hfmprog⟩ :=
            hinv.clock_item c hcmem
          have hfmf : fm = f := key_inj FileItem.uploadId hinv.files_nodup hfmmem hf
            (by rw [hfmid, hcuid, hx])
          rw [hfmf] at hfmcomp hfmex hfmprog
          rw [← hfe]
          refine ⟨?_, ?_, ?_⟩
          · rw [advanceItem_progress, hfmprog]
            have hle : (c.currentChunk : ℚ) / (c.totalChunks : ℚ) ≤
                min (((c.currentChunk + 1 : Nat) : ℚ) / (c.totalChunks : ℚ)) 1 := by
              apply le_min
              · apply (div_le_div_iff_of_pos_right htot).mpr
                push_cast
                linarith
              · apply (div_le_one htot).mpr
                exact_mod_cast le_of_lt hcnt
            exact mul_le_mul_of_nonneg_right hle (by norm_num)
          · intro hcontra
            rw [hfmcomp] at hcontra
            cases hcontra
          · intro hex
            rw [advanceItem_isExiting]
            exact hex
        · have hb : (f.uploadId == uid) = false := by simpa using hx
          rw [hb] at hfe
          simp only [Bool.false_eq_true, if_false] at hfe
          rw [← hfe]
          exact ⟨le_refl _, fun h => h, fun h => h⟩
    | purge =>
      cases hp : s.pendingPurges with
      | nil =>
        rw [purgeFire_empty s hp] at hf'
        have : f' = f := key_inj FileItem.uploadId hinv.files_nodup hf' hf hid
        rw [this]
        exact ⟨le_refl _, fun hx => hx, fun hx => hx⟩
      | cons p rest =>
        rcases p with ⟨uid2, b2⟩
        rw [purgeFire_eq s uid2 b2 rest hp] at hf'
        have hmem : f' ∈ s.files := List.mem_of_mem_filter hf'
        have : f' = f := key_inj FileItem.uploadId hinv.files_nodup hmem hf hid
        rw [this]
        exact ⟨le_refl _, fun hx => hx, fun hx => hx⟩

/-- The C5 bounds and step monotonicity at a concrete reachable input. -/
theorem progress_invariant_witness :
    (∀ f ∈ sAdmit2.files, 0 ≤ f.progress ∧ f.progress ≤ 100) ∧
    (∀ c ∈ sAdmit2.clocks, c.currentChunk ≤ c.totalChunks) ∧
    (∀ s' : EngineState, Step cfg2 sAdmit2 s' → ∀ f ∈ sAdmit2.files, ∀ f' ∈ s'.files,
      f'.uploadId = f.uploadId →
      f.progress ≤ f'.progress ∧ (f.isComplete = true → f'.isComplete = true) ∧
      (f.isExiting = true → f'.isExiting = true)) :=
  progress_invariant cfg2 sAdmit2 sAdmit2_reachable

/-- C6: the tick on which an item's counter reaches its target reports
completion: the item is stored complete at 100 percent with the
completion status, exactly one `file-completed` for its id is
dispatched, the item's clock is deregistered, and a further tick for the
id is a complete no-op — once Complete, no tick changes the item
again. -/
theorem completing_tick_spec (s : EngineState) (uid : Nat) (c : Clock)
    (hnd : distinctClocks s.clocks) (hc : c ∈ s.clocks) (hid : c.uploadId = uid)
    (hlast : c.currentChunk + 1 = c.totalChunks)
    (hhit : (s.files.any fun f => f.uploadId == uid) = true) :
    (tickFire s uid).events = s.events ++ [Event.fileCompleted uid] ∧
    (∀ c2 ∈ (tickFire s uid).clocks, c2.uploadId ≠ uid) ∧
    (∀ f ∈ s.files, f.uploadId = uid →
      { f with progress := 100, status := "Upload Complete", isComplete := true }
        ∈ (tickFire s uid).files) ∧
    tickFire (tickFire s uid) uid = tickFire s uid := by
  have hfind : s.clocks.find? (fun c2 => c2.uploadId == uid) = some c :=
    find?_key_eq Clock.uploadId hnd hc uid hid
  have htot : 0 < c.totalChunks := by omega
  have hbool : decide
      (1 ≤ min (((c.currentChunk + 1 : Nat) : ℚ) / (c.totalChunks : ℚ)) 1) = true := by
    apply decide_eq_true
    rw [hlast, ratio_full htot]
  have heq : tickFire s uid = { s with
      files := s.files.map (fun f => if f.uploadId == uid
        then advanceItem f (c.currentChunk + 1) c.totalChunks else f),
      clocks := s.clocks.filter (fun c2 => !(c2.uploadId == uid)),
      events := s.events ++ [Event.fileCompleted uid] } := by
    rw [tickFire_of_some s uid c hfind]
    exact tickApply_complete s uid c hhit hbool
  have hnoclk : ∀ c2 ∈ (tickFire s uid).clocks, c2.uploadId ≠ uid := by
    rw [heq]
    intro c2 hc2
    have := (List.mem_filter.mp hc2).2
    simpa using this
  refine ⟨by rw [heq], hnoclk, ?_, tickFire_no_clock (tickFire s uid) uid hnoclk⟩
  intro f hf hfid
  have hadv : advanceItem f (c.currentChunk + 1) c.totalChunks =
      { f with progress := 100, status := "Upload Complete", isComplete := true } := by
    have h1 : decide ((1 : ℚ) ≤ 1) = true := decide_eq_true (le_refl 1)
    simp only [advanceItem, hlast, ratio_full htot, h1, if_true, one_mul]
  have hb : (f.uploadId == uid) = true := by simpa using hfid
  rw [heq]
  show _ ∈ s.files.map (fun f => if f.uploadId == uid
    then advanceItem f (c.currentChunk + 1) c.totalChunks else f)
  have himg : (if f.uploadId == uid
      then advanceItem f (c.currentChunk + 1) c.totalChunks else f) =
      { f with progress := 100, status := "Upload Complete", isComplete := true } := by
    rw [hb]
    simp only [if_true]
    exact hadv
  rw [← himg]
  exact List.mem_map_of_mem _ hf

/-- The C6 `[2, 2]` scenario: the second tick completes the item with
`completedChunks = targetChunks = 2`, dispatches `file-completed` once,
deregisters the clock, and a third tick changes nothing. -/
theorem completing_tick_spec_witness :
    (tickFire sTick1 0).events = sTick1.events ++ [Event.fileCompleted 0] ∧
    (∀ c2 ∈ (tickFire sTick1 0).clocks, c2.uploadId ≠ 0) ∧
    (∀ f ∈ sTick1.files, f.uploadId = 0 →
      { f with progress := 100, status := "Upload Complete", isComplete := true }
        ∈ (tickFire sTick1 0).files) ∧
    tickFire (tickFire sTick1 0) 0 = tickFire sTick1 0 :=
  completing_tick_spec sTick1 0 ⟨0, 2, 1⟩
    (by rw [sTick1_eval]; exact List.pairwise_singleton _ _)
    (by rw [sTick1_eval]; exact List.mem_singleton_self _) rfl rfl
    (by rw [sTick1_eval]; decide)

/-- C3: a removal request dispatches nothing immediately, leaves the
fresh-id counter alone and schedules exactly one deferred purge carrying
its `userInitiated` flag.  When the id marks no present item and no
registered interval it is an observable no-op: items, clocks and trace
are unchanged and the deferred purge fires silently, deleting nothing.
When every matching item is already exiting the item list is again
unchanged.  Otherwise the id's interval (if any) is stopped and
deregistered, the item is marked exiting, and when its purge fires the
item is deleted and exactly one `file-removed` with the preserved flag
is dispatched.  In every case, no `file-completed` for the id is ever
dispatched after the request. -/
theorem removeFile_spec (cfg : Config) (s : EngineState) (uid : Nat) (b : Bool)
    (hnd : distinctFiles s.files) (huid : uid < s.nextId) :
    (removeFile s uid b).events = s.events ∧
    (removeFile s uid b).pendingPurges = s.pendingPurges ++ [(uid, b)] ∧
    ((∀ f ∈ s.files, f.uploadId ≠ uid) → (removeFile s uid b).files = s.files) ∧
    ((∀ c ∈ s.clocks, c.uploadId ≠ uid) → (removeFile s uid b).clocks = s.clocks) ∧
    ((∀ f ∈ s.files, f.uploadId = uid → f.isExiting = true) →
      (removeFile s uid b).files = s.files) ∧
    (∀ c : Clock, c ∈ (removeFile s uid b).clocks ↔ c ∈ s.clocks ∧ c.uploadId ≠ uid) ∧
    (∀ f ∈ s.files, f.uploadId = uid →
      { f with isExiting := true } ∈ (removeFile s uid b).files) ∧
    (s.pendingPurges = [] → ∀ f ∈ s.files, f.uploadId = uid →
      (purgeFire (removeFile s uid b)).events =
        s.events ++ [Event.fileRemoved uid f.name b] ∧
      (∀ g2 : FileItem, g2 ∈ (purgeFire (removeFile s uid b)).files ↔
        g2 ∈ (removeFile s uid b).files ∧ g2.uploadId ≠ uid)) ∧
    (s.pendingPurges = [] → (∀ f ∈ s.files, f.uploadId ≠ uid) →
      (purgeFire (removeFile s uid b)).events = s.events ∧
      (purgeFire (removeFile s uid b)).files = s.files) ∧
    (∀ s' : EngineState, Relation.ReflTransGen (Step cfg) (removeFile s uid b) s' →
      Event.fileCompleted uid ∈ s'.events → Event.fileCompleted uid ∈ s.events) := by
  have hg : ∀ f : FileItem,
      ((fun f => if f.uploadId == uid then { f with isExiting := true } else f) f).uploadId
        = f.uploadId := by
    intro f
    by_cases h : f.uploadId = uid <;> simp [h]
  have hmark : ∀ f ∈ s.files, f.uploadId = uid →
      { f with isExiting := true } ∈ (removeFile s uid b).files := by
    intro f hf hfid
    have hb : (f.uploadId == uid) = true := by simpa using hfid
    rw [removeFile_files]
    have himg : (if f.uploadId == uid then { f with isExiting := true } else f) =
        { f with isExiting := true } := by
      rw [hb]
      simp
    rw [← himg]
    exact List.mem_map_of_mem _ hf
  refine ⟨removeFile_events s uid b, removeFile_pending s uid b,
    removeFile_files_absent s uid b, removeFile_clocks_absent s uid b,
    removeFile_files_exiting s uid b, mem_removeFile_clocks s uid b, hmark,
    ?_, ?_, ?_⟩
  · intro hpe f hf hfid
    have hpp : (removeFile s uid b).pendingPurges = (uid, b) :: [] := by
      rw [removeFile_pending, hpe]
      rfl
    have hrmnd : distinctFiles (removeFile s uid b).files := by
      rw [removeFile_files]
      exact distinctFiles_map hg hnd
    have hmem := hmark f hf hfid
    have hfind : (removeFile s uid b).files.find? (fun f2 => f2.uploadId == uid) =
        some { f with isExiting := true } :=
      find?_key_eq FileItem.uploadId hrmnd hmem uid hfid
    rw [purgeFire_eq (removeFile s uid b) uid b [] hpp]
    constructor
    · show (match (removeFile s uid b).files.find? (fun f2 => f2.uploadId == uid) with
        | some f2 => (removeFile s uid b).events ++ [Event.fileRemoved uid f2.name b]
        | none => (removeFile s uid b).events) = s.events ++ [Event.fileRemoved uid f.name b]
      rw [hfind]
      rfl
    · intro g2
      show g2 ∈ (removeFile s uid b).files.filter (fun f2 => !(f2.uploadId == uid)) ↔ _
      rw [List.mem_filter]
      constructor
      · intro ⟨h1, h2⟩
        exact ⟨h1, by simpa using h2⟩
      · intro ⟨h1, h2⟩
        exact ⟨h1, by simpa using h2⟩
  · intro hpe habs
    have hpp : (removeFile s uid b).pendingPurges = (uid, b) :: [] := by
      rw [removeFile_pending, hpe]
      rfl
    have hfe : (removeFile s uid b).files = s.files := removeFile_files_absent s uid b habs
    have hfind : (removeFile s uid b).files.find? (fun f2 => f2.uploadId == uid) = none := by
      rw [hfe]
      exact find?_key_none FileItem.uploadId habs
    rw [purgeFire_eq (removeFile s uid b) uid b [] hpp]
    constructor
    · show (match (removeFile s uid b).files.find? (fun f2 => f2.uploadId == uid) with
        | some f2 => (removeFile s uid b).events ++ [Event.fileRemoved uid f2.name b]
        | none => (removeFile s uid b).events) = s.events
      rw [hfind]
      exact removeFile_events s uid b
    · show (removeFile s uid b).files.filter (fun f2 => !(f2.uploadId == uid)) = s.files
      rw [hfe]
      apply List.filter_eq_self.mpr
      intro f2 hf2
      simpa using habs f2 hf2
  · intro s' htr hm
    have hun : unclockedId uid (removeFile s uid b) := by
      refine ⟨?_, ?_⟩
      · rw [removeFile_nextId]
        exact huid
      · intro c hc
        exact ((mem_removeFile_clocks s uid b c).mp hc).2
    exact (trace_no_new_completed cfg uid htr hun).2 hm

/-- The C3 scenario at a concrete input: admit one file and immediately
request its removal before any tick — the clock is stopped, the item
marked exiting, the purge then deletes it and fires exactly one
`file-removed` with `userInitiated = true`, and no `file-completed` is
ever dispatched for the id. -/
theorem removeFile_spec_witness :
    (removeFile sAdmit2 0 true).events = sAdmit2.events ∧
    (removeFile sAdmit2 0 true).pendingPurges = sAdmit2.pendingPurges ++ [(0, true)] ∧
    ((∀ f ∈ sAdmit2.files, f.uploadId ≠ 0) → (removeFile sAdmit2 0 true).files = sAdmit2.files) ∧
    ((∀ c ∈ sAdmit2.clocks, c.uploadId ≠ 0) →
      (removeFile sAdmit2 0 true).clocks = sAdmit2.clocks) ∧
    ((∀ f ∈ sAdmit2.files, f.uploadId = 0 → f.isExiting = true) →
      (removeFile sAdmit2 0 true).files = sAdmit2.files) ∧
    (∀ c : Clock, c ∈ (removeFile sAdmit2 0 true).clocks ↔
      c ∈ sAdmit2.clocks ∧ c.uploadId ≠ 0) ∧
    (∀ f ∈ sAdmit2.files, f.uploadId = 0 →
      { f with isExiting := true } ∈ (removeFile sAdmit2 0 true).files) ∧
    (sAdmit2.pendingPurges = [] → ∀ f ∈ sAdmit2.files, f.uploadId = 0 →
      (purgeFire (removeFile sAdmit2 0 true)).events =
        sAdmit2.events ++ [Event.fileRemoved 0 f.name true] ∧
      (∀ g2 : FileItem, g2 ∈ (purgeFire (removeFile sAdmit2 0 true)).files ↔
        g2 ∈ (removeFile sAdmit2 0 true).files ∧ g2.uploadId ≠ 0)) ∧
    (sAdmit2.pendingPurges = [] → (∀ f ∈ sAdmit2.files, f.uploadId ≠ 0) →
      (purgeFire (removeFile sAdmit2 0 true)).events = sAdmit2.events ∧
      (purgeFire (removeFile sAdmit2 0 true)).files = sAdmit2.files) ∧
    (∀ s' : EngineState,
      Relation.ReflTransGen (Step cfg2) (removeFile sAdmit2 0 true) s' →
      Event.fileCompleted 0 ∈ s'.events → Event.fileCompleted 0 ∈ sAdmit2.events) :=
  removeFile_spec cfg2 sAdmit2 0 true
    (by rw [sAdmit2_eval]; exact List.pairwise_singleton _ _)
    (by rw [sAdmit2_eval]; decide)

/-- C9: for every configured `chunkRange`, including ranges with
`max < min` or non-positive bounds, the effective bounds are corrected by
clamping (`min` floored to 1, `max` floored to the clamped `min`), and
every total sampled from a `Math.random()` draw is an integer in the
inclusive clamped range — hence at least 1; no input is rejected. -/
theorem randomChunkTotal_bounds (cfg : Config) (u : ℚ) (h0 : 0 ≤ u) (h1 : u < 1) :
    1 ≤ clampedMin cfg ∧ clampedMin cfg ≤ clampedMax cfg ∧
    clampedMin cfg ≤ randomChunkTotal cfg u ∧
    randomChunkTotal cfg u ≤ clampedMax cfg ∧
    1 ≤ randomChunkTotal cfg u :=
  chunkTotal_bounds cfg u h0 h1

/-- A concrete instance of C9: an inverted, negative `chunkRange` is
clamped and the sampled total is still at least 1. -/
theorem randomChunkTotal_bounds_witness :
    (1 ≤ clampedMin ⟨true, (-5, -10)⟩ ∧
      clampedMin ⟨true, (-5, -10)⟩ ≤ clampedMax ⟨true, (-5, -10)⟩ ∧
      clampedMin ⟨true, (-5, -10)⟩ ≤ randomChunkTotal ⟨true, (-5, -10)⟩ (1 / 2) ∧
      randomChunkTotal ⟨true, (-5, -10)⟩ (1 / 2) ≤ clampedMax ⟨true, (-5, -10)⟩ ∧
      1 ≤ randomChunkTotal ⟨true, (-5, -10)⟩ (1 / 2)) ∧
    randomChunkTotal ⟨true, (-5, -10)⟩ (1 / 2) = 1 :=
  ⟨randomChunkTotal_bounds ⟨true, (-5, -10)⟩ (1 / 2) (by norm_num) (by norm_num),
    by norm_num [randomChunkTotal, clampedMin, clampedMax]⟩

end JuiceboxFileList
